import Mathlib

/-
Verification of the P2P file-sharing engine (FileManager, UDPServer, TCPServer,
Peer) against its natural-language specification.

The C++ sources are shallowly embedded: pure data manipulations become Lean
functions, the file system becomes an explicit map from paths to optional byte
lists (bytes are modelled as `Char`), std::map / std::unordered_map fields whose
operator[] default-inserts become total functions with the default value, and
std::set<int> becomes `Finset Int`.  Socket sends are modelled as the list of
(destination ip, destination port, message) triples a handler produces, in
program order.
-/

namespace P2P

/-- Constants.h: base path where project files are stored. -/
def BASE_PATH : String := "./src/"

/-- Constants.h: maximum size of a control message (bytes). -/
def CONTROL_MESSAGE_MAX_SIZE : Nat := 1024

/-- File system model: a map from path to the file's bytes, `none` when the
file does not exist / cannot be opened for reading. -/
abbrev FS := String → Option (List Char)

/-- Point update of the file-system map. -/
def updateFS (fs : FS) (p : String) (v : Option (List Char)) : FS :=
  fun q => if q = p then v else fs q

/-- FileManager.h: `struct ChunkLocationInfo` — ip, UDP port and advertised
transfer speed of a peer that holds a chunk. -/
structure ChunkLocationInfo where
  ip : String
  port : Int
  transfer_speed : Int
deriving DecidableEq

/-- TCPServer.h: `struct PeerInfo` — ip and port of a peer. -/
structure PeerInfo where
  ip : String
  port : Int
deriving DecidableEq

/-- C++ `static_cast<size_t>(n)` for a (mathematical) signed integer:
conversion to an unsigned 64-bit value, i.e. reduction modulo 2^64. -/
def intToSizeT (n : Int) : Nat := (n % (2 : Int) ^ 64).toNat

/-- State of a `FileManager` object (FileManager.h, data members).
`local_chunks`, `file_chunks` use operator[]-style defaults and are modelled
as total functions; `chunk_location_info` presence matters (find/erase), so it
is an `Option`; of the mutex map only the presence of the per-file entry is
observable, kept as a `Bool`-valued function. -/
structure FMState where
  peer_id : String
  directory : String
  local_chunks : String → Finset Int
  file_chunks : String → Int
  chunk_location_info : String → Option (List (List ChunkLocationInfo))
  chunk_location_info_mutex : String → Bool

/-- FileManager::getChunkPath. -/
def getChunkPath (st : FMState) (file_name : String) (chunk : Int) : String :=
  st.directory ++ "/" ++ file_name ++ ".ch" ++ toString chunk

/-- FileManager::hasChunk. -/
def hasChunk (st : FMState) (file_name : String) (chunk : Int) : Bool :=
  decide (chunk ∈ st.local_chunks file_name)

/-- FileManager::getAvailableChunks: the locally held chunk ids of a file,
in ascending order (std::set iteration order). -/
def getAvailableChunks (st : FMState) (file_name : String) : List Int :=
  (st.local_chunks file_name).sort (· ≤ ·)

/-- FileManager::initializeFileChunks. -/
def initializeFileChunks (st : FMState) (file_name : String) (total_chunks : Int) :
    FMState :=
  { st with file_chunks := fun f => if f = file_name then total_chunks else st.file_chunks f }

/-- FileManager::initializeChunkLocationInfo: if no entry exists for the file,
allocate `total_chunks` empty provider lists (vector::resize with the size_t
cast of the int count); always make sure the per-file mutex entry exists. -/
def initializeChunkLocationInfo (st : FMState) (file_name : String) : FMState :=
  let total_chunks := st.file_chunks file_name
  let info :=
    match st.chunk_location_info file_name with
    | none => some (List.replicate (intToSizeT total_chunks) ([] : List ChunkLocationInfo))
    | some v => some v
  { st with
    chunk_location_info := fun f => if f = file_name then info else st.chunk_location_info f
    chunk_location_info_mutex := fun f =>
      if f = file_name then true else st.chunk_location_info_mutex f }

/-- FileManager::clearChunkLocationInfo: erase the per-file provider table and
its mutex entry. -/
def clearChunkLocationInfo (st : FMState) (file_name : String) : FMState :=
  { st with
    chunk_location_info := fun f => if f = file_name then none else st.chunk_location_info f
    chunk_location_info_mutex := fun f =>
      if f = file_name then false else st.chunk_location_info_mutex f }

/-- The chunk-concatenation loop of FileManager::assembleFile: append the
contents of each path in turn to the output file via
`output_file << chunk_file.rdbuf()`; stop returning `false` as soon as a
chunk file cannot be opened.  `fail` is the failbit of the output stream:
inserting a streambuf that yields no characters (an empty chunk file) sets
it, and once set every later insertion is a no-op — the loop never tests or
clears it, only the per-chunk open check is acted on. -/
def appendChunks (out_path : String) : FS → Bool → List String → Bool × FS
  | fs, _, [] => (true, fs)
  | fs, fail, p :: rest =>
    match fs p with
    | none => (false, fs)
    | some bytes =>
      if fail then appendChunks out_path fs true rest
      else if bytes = [] then appendChunks out_path fs true rest
      else
        appendChunks out_path
          (updateFS fs out_path (some (((fs out_path).getD []) ++ bytes))) false rest

/-- FileManager::assembleFile: when the local chunk set has exactly
`total_chunks` elements (size_t comparison), truncate/create the output file
and concatenate `<file>.ch0 .. <file>.ch(n-1)` into it; on success destroy the
per-file discovery state.  Returns (assembled?, file system, manager state). -/
def assembleFile (fs : FS) (st : FMState) (file_name : String) :
    Bool × FS × FMState :=
  let total_chunks := st.file_chunks file_name
  let has_all_chunks := (st.local_chunks file_name).card = intToSizeT total_chunks
  if has_all_chunks then
    let output_path := st.directory ++ "/" ++ file_name
    let fs1 := updateFS fs output_path (some [])
    let paths := (List.range total_chunks.toNat).map
      (fun i => getChunkPath st file_name (Int.ofNat i))
    let r := appendChunks output_path fs1 false paths
    if r.1 then (true, r.2, clearChunkLocationInfo st file_name)
    else (false, r.2, st)
  else (false, fs, st)

/-- FileManager::saveChunk.  `wr p` models whether the std::ofstream for path
`p` opens successfully; when it does not, the method logs and returns without
touching any state.  Otherwise the chunk bytes are written, the id is inserted
into the local chunk set and assembly is attempted.  The Bool reports the
(discarded in C++) result of the assembly attempt, `false` when none was made. -/
def saveChunk (fs : FS) (wr : String → Bool) (st : FMState) (file_name : String)
    (chunk : Int) (data : List Char) : Bool × FS × FMState :=
  let path := getChunkPath st file_name chunk
  if wr path = false then (false, fs, st)
  else
    let fs1 := updateFS fs path (some data)
    let st1 := { st with local_chunks := fun f =>
        if f = file_name then insert chunk (st.local_chunks f) else st.local_chunks f }
    assembleFile fs1 st1 file_name

/-! ### Assignment planner (FileManager::selectPeersForChunkDownload) -/

/-- The key `"ip:port"` under which a provider is stored in the
`chunks_by_peer_map` of selectPeersForChunkDownload. -/
def peerKey (c : ChunkLocationInfo) : String := c.ip ++ ":" ++ toString c.port

/-- Insert a provider into a list already sorted by strictly descending
transfer speed, keeping the relative order of equal speeds. -/
def insertBySpeed (c : ChunkLocationInfo) :
    List ChunkLocationInfo → List ChunkLocationInfo
  | [] => [c]
  | d :: rest =>
    if c.transfer_speed > d.transfer_speed then c :: d :: rest
    else d :: insertBySpeed c rest

/-- The `std::sort` by descending `transfer_speed` of
selectPeersForChunkDownload, as a deterministic (stable) sort.  std::sort
leaves the relative order of equal-speed providers unspecified; this model
fixes it to the input order. -/
def sortBySpeedDesc : List ChunkLocationInfo → List ChunkLocationInfo
  | [] => []
  | c :: rest => insertBySpeed c (sortBySpeedDesc rest)

/-- The `chunks_by_peer_map` result: provider key to the ordered list of
chunk indices assigned to it.  Unordered-map entries are modelled
extensionally, an absent key reading as the empty list (the value
operator[] would default-insert). -/
abbrev Assign := String → List Int

/-- The empty assignment map. -/
def emptyAssign : Assign := fun _ => []

/-- `chunks_by_peer_map[k].push_back(v)`. -/
def appendAssign (m : Assign) (k : String) (v : Int) : Assign :=
  fun x => if x = k then m x ++ [v] else m x

/-- The inner selection loop of selectPeersForChunkDownload (lines 154-164):
walk the speed-sorted providers keeping the first one whose current assignment
count is strictly smaller than the running minimum. -/
def selectLoop (m : Assign) :
    List ChunkLocationInfo → ChunkLocationInfo → Nat → ChunkLocationInfo
  | [], selected_peer, _ => selected_peer
  | p :: rest, selected_peer, min_chunks_assigned =>
    let c := (m (peerKey p)).length
    if c < min_chunks_assigned then selectLoop m rest p c
    else selectLoop m rest selected_peer min_chunks_assigned

/-- One iteration of the outer chunk loop of selectPeersForChunkDownload:
skip a chunk with no providers, otherwise sort its providers by descending
speed, seed the selection with the fastest one and its count, run the
selection loop over the whole sorted list, and append the chunk index to the
selected provider's list. -/
def selectChunkStep (m : Assign) (chunk_index : Int)
    (available_peers_for_chunk : List ChunkLocationInfo) : Assign :=
  if available_peers_for_chunk = [] then m
  else
    match sortBySpeedDesc available_peers_for_chunk with
    | [] => m
    | s0 :: srest =>
      let selected_peer := selectLoop m (s0 :: srest) s0 ((m (peerKey s0)).length)
      appendAssign m (peerKey selected_peer) chunk_index

/-- The outer loop of selectPeersForChunkDownload over chunk indices. -/
def selectPeersAux : List (List ChunkLocationInfo) → Int → Assign → Assign
  | [], _, m => m
  | providers :: rest, chunk_index, m =>
    selectPeersAux rest (chunk_index + 1) (selectChunkStep m chunk_index providers)

/-- FileManager::selectPeersForChunkDownload on a snapshot of the per-chunk
provider table of one file. -/
def selectPeersForChunkDownload (table : List (List ChunkLocationInfo)) : Assign :=
  selectPeersAux table 0 emptyAssign

/-- Modelled from the spec's words (the reference algorithm of the claim, not
the code): among the providers `p :: l`, in sorted order, the one with the
fewest chunks already assigned in `m`, ties broken in favor of the earlier
position. -/
def bestProvider (m : Assign) (p : ChunkLocationInfo) :
    List ChunkLocationInfo → ChunkLocationInfo
  | [] => p
  | q :: rest =>
    let b := bestProvider m q rest
    if (m (peerKey b)).length < (m (peerKey p)).length then b else p

/-- Modelled from the spec's words: reference per-chunk step — skip a chunk
with no providers, otherwise append the index to the list of the best
(least-loaded, then fastest/earliest) provider among the sorted ones. -/
def refChunkStep (m : Assign) (chunk_index : Int)
    (providers : List ChunkLocationInfo) : Assign :=
  match sortBySpeedDesc providers with
  | [] => m
  | s0 :: srest => appendAssign m (peerKey (bestProvider m s0 srest)) chunk_index

/-- Modelled from the spec's words: the reference assignment algorithm,
iterating chunk indices in increasing order. -/
def refSelectAux : List (List ChunkLocationInfo) → Int → Assign → Assign
  | [], _, m => m
  | providers :: rest, chunk_index, m =>
    refSelectAux rest (chunk_index + 1) (refChunkStep m chunk_index providers)

/-- Modelled from the spec's words: the reference assignment planner. -/
def refSelectPeers (table : List (List ChunkLocationInfo)) : Assign :=
  refSelectAux table 0 emptyAssign

/-! ### Discovery table updates (FileManager::storeChunkLocationInfo) -/

/-- Whether a provider with this ip and port is already present in a chunk's
provider list (the std::any_of of storeChunkLocationInfo). -/
def providerPresent (l : List ChunkLocationInfo) (ip : String) (port : Int) : Bool :=
  l.any (fun cli => decide (cli.ip = ip ∧ cli.port = port))

/-- Append the provider to the list unless an entry with the same (ip, port)
already exists. -/
def addProvider (l : List ChunkLocationInfo) (ip : String) (port : Int)
    (transfer_speed : Int) : List ChunkLocationInfo :=
  if providerPresent l ip port then l else l ++ [⟨ip, port, transfer_speed⟩]

/-- One iteration of the loop of storeChunkLocationInfo: an in-range chunk id
(size_t cast of the int id below the table length) updates that entry; an
out-of-range one is recorded as an error (the logMessage call) and skipped. -/
def storeStep (ip : String) (port transfer_speed : Int)
    (acc : List (List ChunkLocationInfo) × List Int) (chunk_id : Int) :
    List (List ChunkLocationInfo) × List Int :=
  if intToSizeT chunk_id < acc.1.length then
    (acc.1.set (intToSizeT chunk_id)
      (addProvider (acc.1.getD (intToSizeT chunk_id) []) ip port transfer_speed),
     acc.2)
  else (acc.1, acc.2 ++ [chunk_id])

/-- FileManager::storeChunkLocationInfo.  Returns the new state together with
the list of chunk ids reported as out-of-range errors, in order. -/
def storeChunkLocationInfo (st : FMState) (file_name : String)
    (chunk_ids : List Int) (ip : String) (port : Int) (transfer_speed : Int) :
    FMState × List Int :=
  let table0 := (st.chunk_location_info file_name).getD []
  let r := chunk_ids.foldl (storeStep ip port transfer_speed) (table0, [])
  ({ st with chunk_location_info := fun f =>
      if f = file_name then some r.1 else st.chunk_location_info f },
   r.2)

/-! ### UDP control plane (UDPServer) -/

/-- An outbound UDP datagram: destination ip, destination port, message text. -/
abbrev Send := String × Int × String

/-- State of a `UDPServer` object (UDPServer.h, data members).  The
`processing_active_map` (std::map with operator[] defaulting to `false`)
is a total function. -/
structure UDPServerState where
  ip : String
  port : Int
  tcp_port : Int
  peer_id : Int
  transfer_speed : Int
  udpNeighbors : List (String × Int)
  processing_active_map : String → Bool

/-- UDPServer::initializeProcessingActive: open the response window. -/
def initializeProcessingActive (ust : UDPServerState) (file_name : String) :
    UDPServerState :=
  { ust with processing_active_map := fun f =>
      if f = file_name then true else ust.processing_active_map f }

/-- UDPServer::waitForResponses: after the timeout, close the response
window (the sleep itself is timing, not data, and is not modelled). -/
def waitForResponses (ust : UDPServerState) (file_name : String) : UDPServerState :=
  { ust with processing_active_map := fun f =>
      if f = file_name then false else ust.processing_active_map f }

/-- The space-joined decimal rendering `"c0 c1 ... "` a stringstream loop
`ss << chunk << " "` produces. -/
def intTokens (l : List Int) : String :=
  String.join (l.map (fun c => toString c ++ " "))

/-- UDPServer::buildChunkDiscoveryMessage. -/
def buildChunkDiscoveryMessage (file_name : String) (total_chunks ttl : Int)
    (chunk_requester_info : PeerInfo) : String :=
  "DISCOVERY " ++ file_name ++ " " ++ toString total_chunks ++ " " ++ toString ttl
    ++ " " ++ chunk_requester_info.ip ++ ":" ++ toString chunk_requester_info.port

/-- UDPServer::buildChunkResponseMessage (tagged with the sender's own
advertised transfer speed). -/
def buildChunkResponseMessage (ust : UDPServerState) (file_name : String)
    (chunks_available : List Int) : String :=
  "RESPONSE " ++ file_name ++ " " ++ toString ust.transfer_speed ++ " "
    ++ intTokens chunks_available

/-- UDPServer::buildChunkRequestMessage. -/
def buildChunkRequestMessage (ust : UDPServerState) (file_name : String)
    (chunks : List Int) : String :=
  "REQUEST " ++ file_name ++ " " ++ toString ust.tcp_port ++ " " ++ intTokens chunks

/-- UDPServer::sendChunkDiscoveryMessage: send the DISCOVERY to every
neighbor (the one-second pause between successive sends is timing only). -/
def sendChunkDiscoveryMessage (ust : UDPServerState) (file_name : String)
    (total_chunks ttl : Int) (chunk_requester_info : PeerInfo) : List Send :=
  ust.udpNeighbors.map (fun nb =>
    (nb.1, nb.2, buildChunkDiscoveryMessage file_name total_chunks ttl chunk_requester_info))

/-- UDPServer::sendChunkResponseMessage: if any chunk of the file is held
locally, send a RESPONSE listing the held chunk ids to the requester;
otherwise only log. -/
def sendChunkResponseMessage (ust : UDPServerState) (fm : FMState)
    (file_name : String) (chunk_requester_info : PeerInfo) : List Send :=
  let chunks_available := getAvailableChunks fm file_name
  if chunks_available = [] then []
  else [(chunk_requester_info.ip, chunk_requester_info.port,
         buildChunkResponseMessage ust file_name chunks_available)]

/-- UDPServer::processChunkDiscoveryMessage, after the extraction of the
fields and the split of `origin_ip:origin_port` (lines 571-577) has produced
the origin `PeerInfo`: a message whose origin equals the receiver's own
(ip, port) is dropped; otherwise a RESPONSE is attempted towards the origin
and, when the TTL is still positive, the DISCOVERY is re-emitted to every
neighbor with the TTL decremented and the origin preserved. -/
def processChunkDiscoveryMessage (ust : UDPServerState) (fm : FMState)
    (file_name : String) (total_chunks ttl : Int)
    (chunk_requester_info : PeerInfo) : List Send :=
  if chunk_requester_info.ip ≠ ust.ip ∨ chunk_requester_info.port ≠ ust.port then
    sendChunkResponseMessage ust fm file_name chunk_requester_info
      ++ (if ttl > 0 then
            sendChunkDiscoveryMessage ust file_name total_chunks (ttl - 1)
              chunk_requester_info
          else [])
  else []

/-- Space-tokenizer worker: `cur` holds the reversed characters of the token
being read. -/
def tokenizeAux (cur : List Char) : List Char → List String
  | [] => if cur = [] then [] else [String.mk cur.reverse]
  | c :: rest =>
    if c = ' ' then
      if cur = [] then tokenizeAux [] rest
      else String.mk cur.reverse :: tokenizeAux [] rest
    else tokenizeAux (c :: cur) rest

/-- Whitespace-token split of a message, modelling repeated `stream >> token`
extraction (wire messages separate tokens by single spaces). -/
def splitTokens (s : String) : List String := tokenizeAux [] s.data

/-- Decimal value of a digit run. -/
def digitsToNat (ds : List Char) : Nat :=
  ds.foldl (fun acc c => acc * 10 + (c.toNat - '0'.toNat)) 0

/-- Integer parse of one whole token (`stream >> int_var` applied to a single
whitespace-delimited token): an optional sign followed by at least one digit. -/
def tokenToInt (s : String) : Option Int :=
  match s.data with
  | [] => none
  | '-' :: ds =>
    if ds = [] ∨ ¬ ds.all Char.isDigit then none else some (-(digitsToNat ds : Int))
  | '+' :: ds =>
    if ds = [] ∨ ¬ ds.all Char.isDigit then none else some ((digitsToNat ds : Int))
  | ds =>
    if ¬ ds.all Char.isDigit then none else some ((digitsToNat ds : Int))

/-- The `while (message >> chunk)` loop: parse decimal integers until the
first token that is not one. -/
def parseInts : List String → List Int
  | [] => []
  | t :: rest =>
    match tokenToInt t with
    | some v => v :: parseInts rest
    | none => []

/-- UDPServer::processChunkResponseMessage on the token list following the
`RESPONSE` command: read the file name and the sender's advertised speed,
collect the advertised chunk ids that are not already held locally, and if
any remain record them in the discovery table keyed by the direct sender's
endpoint.  A failed speed extraction leaves the stream failed, so no chunk is
read and nothing is stored. -/
def processChunkResponseMessage (fm : FMState) (tokens : List String)
    (direct_sender_info : PeerInfo) : FMState :=
  match tokens with
  | [] => fm
  | _file_name :: [] => fm
  | file_name :: speed_tok :: chunk_toks =>
    match tokenToInt speed_tok with
    | none => fm
    | some transfer_speed =>
      let chunks_received := (parseInts chunk_toks).filter
        (fun chunk => hasChunk fm file_name chunk = false)
      if chunks_received.length > 0 then
        (storeChunkLocationInfo fm file_name chunks_received
          direct_sender_info.ip direct_sender_info.port transfer_speed).1
      else fm

/-- Split `"ip:port"` at the first colon (the find(':')/substr/stoi sequence,
applied to well-formed endpoints; a missing or non-numeric port yields 0). -/
def splitIpPort (s : String) : PeerInfo :=
  let ipChars := s.data.takeWhile (fun c => c ≠ ':')
  let restChars := (s.data.dropWhile (fun c => c ≠ ':')).drop 1
  ⟨String.mk ipChars, (tokenToInt (String.mk restChars)).getD 0⟩

/-- UDPServer::processMessage: dispatch on the leading command token.  The
DISCOVERY branch hands the parsed fields to the discovery handler; the
RESPONSE branch reads the file name and drops the message unless the
response window for that file is open; the REQUEST branch delegates to the
TCP server (whose sends are outside this state) and the file-manager state
is untouched; an unknown command is logged and dropped.  Returns the updated
file-manager state and the UDP datagrams sent. -/
def processMessage (ust : UDPServerState) (fm : FMState) (message : String)
    (direct_sender_info : PeerInfo) : FMState × List Send :=
  match splitTokens message with
  | [] => (fm, [])
  | command :: rest =>
    if command = "DISCOVERY" then
      match rest with
      | file_name :: tot_tok :: ttl_tok :: ep_tok :: _ =>
        match tokenToInt tot_tok, tokenToInt ttl_tok with
        | some total_chunks, some ttl =>
          (fm, processChunkDiscoveryMessage ust fm file_name total_chunks ttl
                 (splitIpPort ep_tok))
        | _, _ => (fm, [])
      | _ => (fm, [])
    else if command = "RESPONSE" then
      let file_name := rest.headD ""
      if ust.processing_active_map file_name then
        (processChunkResponseMessage fm rest direct_sender_info, [])
      else (fm, [])
    else if command = "REQUEST" then (fm, [])
    else (fm, [])

/-! ### Stream transport framing (TCPServer::sendChunks / receiveChunks) -/

/-- The NUL byte used to pad the fixed-size control buffer. -/
def NUL : Char := Char.ofNat 0

/-- The fixed 1024-byte control buffer of TCPServer::sendChunks: zero-filled,
then at most `CONTROL_MESSAGE_MAX_SIZE - 1` bytes of the control message are
copied in and a terminating NUL is placed after them. -/
def buildControlFrame (control_message : List Char) : List Char :=
  let bytes_to_copy := min control_message.length (CONTROL_MESSAGE_MAX_SIZE - 1)
  control_message.take bytes_to_copy
    ++ List.replicate (CONTROL_MESSAGE_MAX_SIZE - bytes_to_copy) NUL

/-- The block loop of TCPServer::sendChunks: send `min speed remaining` bytes
per iteration (sleeping one second after each block) until the buffer is
exhausted.  A zero speed sends a zero-byte block, which the loop treats as a
closed connection and aborts, producing no blocks. -/
def splitBlocks (transfer_speed : Nat) (l : List Char) : List (List Char) :=
  if transfer_speed = 0 ∨ l = [] then []
  else l.take transfer_speed :: splitBlocks transfer_speed (l.drop transfer_speed)
termination_by l.length
decreasing_by
  simp only [List.length_drop]
  rename_i h
  rw [not_or] at h
  have : 0 < l.length := List.length_pos.mpr h.2
  omega

/-- The per-chunk wire image TCPServer::sendChunks produces: the block
sequence of the 1024-byte control frame followed by the block sequence of the
payload, one one-second sleep following every block. -/
def sendChunkFraming (transfer_speed : Nat) (control_message payload : List Char) :
    List (List Char) × List (List Char) :=
  (splitBlocks transfer_speed (buildControlFrame control_message),
   splitBlocks transfer_speed payload)

/-- Strip the trailing NUL padding from a received control frame (the
receiver appends the 1024 raw bytes to a std::string and parses; equality
"after stripping NUL padding" compares the frame without its NUL tail). -/
def stripTrailingNuls (l : List Char) : List Char :=
  (l.reverse.dropWhile (fun c => c = NUL)).reverse

/-! ### Metadata sidecar and search lifecycle (FileManager::loadMetadata,
Peer::searchFile, Peer::discoverAndRequestChunks) -/

/-- Whitespace as skipped by formatted stream extraction. -/
def isStreamWs (c : Char) : Bool := c = ' ' || c = '\n' || c = '\t' || c = '\r'

/-- One `stream >> int_var` extraction: skip whitespace, accept an optional
sign followed by at least one digit.  On failure the stream fails and (since
C++11) the variable is set to 0; the Bool reports success. -/
def extractInt (l : List Char) : Int × List Char × Bool :=
  let l1 := l.dropWhile isStreamWs
  match l1 with
  | '-' :: rest =>
    let ds := rest.takeWhile Char.isDigit
    if ds = [] then (0, l1, false)
    else (-(digitsToNat ds : Int), rest.dropWhile Char.isDigit, true)
  | '+' :: rest =>
    let ds := rest.takeWhile Char.isDigit
    if ds = [] then (0, l1, false)
    else ((digitsToNat ds : Int), rest.dropWhile Char.isDigit, true)
  | _ =>
    let ds := l1.takeWhile Char.isDigit
    if ds = [] then (0, l1, false)
    else ((digitsToNat ds : Int), l1.dropWhile Char.isDigit, true)

/-- FileManager::loadMetadata: open `<BASE_PATH><file>.p2p`; on open failure
return the sentinel ("", -1, -1).  Otherwise getline the declared name, then
extract the total chunk count and the initial TTL; a failed extraction
leaves 0 in the variable and fails every later extraction. -/
def loadMetadata (fs : FS) (file_name : String) : String × Int × Int :=
  match fs (BASE_PATH ++ file_name ++ ".p2p") with
  | none => ("", -1, -1)
  | some content =>
    let line1 := content.takeWhile (fun c => c ≠ '\n')
    let rest := (content.dropWhile (fun c => c ≠ '\n')).drop 1
    let r1 := extractInt rest
    let r2 := if r1.2.2 then extractInt r1.2.1 else (0, r1.2.1, false)
    (String.mk line1, r1.1, r2.1)

/-- The key set of the `chunks_by_peer_map` produced by
selectPeersForChunkDownload: every provider of every non-empty chunk entry is
probed by operator[] during selection and therefore materialised as a map
key.  std::unordered_map iteration order is unspecified; this enumeration
fixes it to first-probe order. -/
def probedKeys (table : List (List ChunkLocationInfo)) : List String :=
  table.foldl (fun acc providers =>
    if providers = [] then acc
    else (sortBySpeedDesc providers).foldl
      (fun a p => if peerKey p ∈ a then a else a ++ [peerKey p]) acc) []

/-- UDPServer::sendChunkRequestMessage: plan the assignment on the current
discovery table and send one REQUEST (carrying that provider's chunk list,
possibly empty for a provider that was probed but never selected) to each
map key, parsed back into an endpoint. -/
def sendChunkRequestMessage (ust : UDPServerState) (fm : FMState)
    (file_name : String) : List Send :=
  let table := (fm.chunk_location_info file_name).getD []
  let chunks_by_peer := selectPeersForChunkDownload table
  (probedKeys table).map (fun key =>
    let ep := splitIpPort key
    (ep.ip, ep.port, buildChunkRequestMessage ust file_name (chunks_by_peer key)))

/-- Peer::discoverAndRequestChunks, in the execution where no inbound
datagram is processed during the response window (the claims settled here do
not depend on concurrent RESPONSE arrivals): open the response window,
attempt assembly; if incomplete, flood the DISCOVERY, close the window when
the wait expires, and emit the planned REQUESTs. -/
def discoverAndRequestChunks (fs : FS) (ust : UDPServerState) (fm : FMState)
    (file_name : String) (total_chunks initial_ttl : Int) :
    FS × UDPServerState × FMState × List Send :=
  let original_sender_info : PeerInfo := ⟨ust.ip, ust.port⟩
  let ust1 := initializeProcessingActive ust file_name
  let r := assembleFile fs fm file_name
  if r.1 then (r.2.1, ust1, r.2.2, [])
  else
    let discovery_sends :=
      sendChunkDiscoveryMessage ust1 file_name total_chunks initial_ttl
        original_sender_info
    let ust2 := waitForResponses ust1 file_name
    let request_sends := sendChunkRequestMessage ust2 r.2.2 file_name
    (r.2.1, ust2, r.2.2, discovery_sends ++ request_sends)

/-- Peer::searchFile: load the metadata sidecar; only when both the total
chunk count and the initial TTL differ from -1, initialise the per-file
chunk count and discovery table (under the name declared in the sidecar) and
start discovery.  Returns the file system, the UDP state, the file-manager
state and the datagrams sent. -/
def searchFile (fs : FS) (ust : UDPServerState) (fm : FMState)
    (file_name : String) : FS × UDPServerState × FMState × List Send :=
  let meta := loadMetadata fs file_name
  let file_name_returned := meta.1
  let total_chunks := meta.2.1
  let initial_ttl := meta.2.2
  if total_chunks ≠ -1 ∧ initial_ttl ≠ -1 then
    let fm1 := initializeFileChunks fm file_name_returned total_chunks
    let fm2 := initializeChunkLocationInfo fm1 file_name_returned
    discoverAndRequestChunks fs ust fm2 file_name_returned total_chunks initial_ttl
  else (fs, ust, fm, [])

/-! ### Helper lemmas -/

/-- assembleFile never touches the local chunk set. -/
lemma assembleFile_local_chunks (fs : FS) (st : FMState) (file_name : String) :
    (assembleFile fs st file_name).2.2.local_chunks = st.local_chunks := by
  unfold assembleFile
  dsimp only
  split
  · split <;> rfl
  · rfl

/-- A chunk artifact path is never the assembled output path: it extends it
by ".ch" and the decimal chunk id. -/
lemma getChunkPath_ne_output (st : FMState) (file_name : String) (i : Int) :
    getChunkPath st file_name i ≠ st.directory ++ "/" ++ file_name := by
  intro h
  have h2 := congrArg String.length h
  rw [getChunkPath] at h2
  simp only [String.length_append] at h2
  have h3 : (".ch" : String).length = 3 := rfl
  omega

/-- Behaviour of the chunk-concatenation loop when the output file exists and
no chunk path coincides with the output path: it reports success exactly when
every chunk file opens, regardless of the failbit; when started with a clear
failbit and every chunk file is non-empty (so the failbit never trips), a
successful run leaves the output holding the ordered concatenation of their
contents; paths other than the output are untouched. -/
lemma appendChunks_spec (out_path : String) (paths : List String) :
    ∀ (fs : FS) (fail : Bool) (init : List Char), fs out_path = some init →
      (∀ p ∈ paths, p ≠ out_path) →
      (((appendChunks out_path fs fail paths).1 = true) ↔ ∀ p ∈ paths, fs p ≠ none)
      ∧ (fail = false → (∀ p ∈ paths, fs p ≠ some []) →
          (appendChunks out_path fs fail paths).1 = true →
          (appendChunks out_path fs fail paths).2 out_path =
            some (init ++ (paths.map (fun p => (fs p).getD [])).flatten))
      ∧ (∀ q, q ≠ out_path → (appendChunks out_path fs fail paths).2 q = fs q) := by
  induction paths with
  | nil =>
    intro fs fail init hinit _
    refine ⟨by simp [appendChunks], ?_, ?_⟩
    · intro _ _ _
      simp [appendChunks, hinit]
    · intro q _
      simp [appendChunks]
  | cons p rest ih =>
    intro fs fail init hinit h
    have hp : p ≠ out_path := h p (List.mem_cons_self p rest)
    have hrest : ∀ q ∈ rest, q ≠ out_path := fun q hq => h q (List.mem_cons_of_mem p hq)
    cases hfp : fs p with
    | none =>
      refine ⟨?_, ?_, ?_⟩
      · simp only [appendChunks, hfp]
        constructor
        · intro hfalse
          simp at hfalse
        · intro hall
          exact absurd hfp (hall p (List.mem_cons_self p rest))
      · intro _ _ htrue
        simp only [appendChunks, hfp] at htrue
        simp at htrue
      · intro q _
        simp [appendChunks, hfp]
    | some bytes =>
      cases fail with
      | true =>
        have hstep : appendChunks out_path fs true (p :: rest)
            = appendChunks out_path fs true rest := by
          simp [appendChunks, hfp]
        have ihr := ih fs true init hinit hrest
        refine ⟨?_, ?_, ?_⟩
        · rw [hstep, ihr.1]
          constructor
          · intro hall q hq
            rcases List.mem_cons.mp hq with hq1 | hq2
            · rw [hq1, hfp]; simp
            · exact hall q hq2
          · intro hall q hq
            exact hall q (List.mem_cons_of_mem p hq)
        · intro hcon
          simp at hcon
        · intro q hq
          rw [hstep]
          exact ihr.2.2 q hq
      | false =>
        by_cases hb : bytes = []
        · subst hb
          have hstep : appendChunks out_path fs false (p :: rest)
              = appendChunks out_path fs true rest := by
            simp [appendChunks, hfp]
          have ihr := ih fs true init hinit hrest
          refine ⟨?_, ?_, ?_⟩
          · rw [hstep, ihr.1]
            constructor
            · intro hall q hq
              rcases List.mem_cons.mp hq with hq1 | hq2
              · rw [hq1, hfp]; simp
              · exact hall q hq2
            · intro hall q hq
              exact hall q (List.mem_cons_of_mem p hq)
          · intro _ hne _
            exact absurd hfp (hne p (List.mem_cons_self p rest))
          · intro q hq
            rw [hstep]
            exact ihr.2.2 q hq
        · set fs1 : FS :=
            updateFS fs out_path (some (((fs out_path).getD []) ++ bytes)) with hfs1
          have hsame : ∀ q ∈ rest, fs1 q = fs q := by
            intro q hq
            simp [hfs1, updateFS, hrest q hq]
          have hout1 : fs1 out_path = some (init ++ bytes) := by
            simp [hfs1, updateFS, hinit]
          have ihr := ih fs1 false (init ++ bytes) hout1 hrest
          have hstep : appendChunks out_path fs false (p :: rest)
              = appendChunks out_path fs1 false rest := by
            simp [appendChunks, hfp, hb]
          refine ⟨?_, ?_, ?_⟩
          · rw [hstep, ihr.1]
            constructor
            · intro hall q hq
              rcases List.mem_cons.mp hq with hq1 | hq2
              · rw [hq1, hfp]; simp
              · rw [← hsame q hq2]; exact hall q hq2
            · intro hall q hq
              rw [hsame q hq]
              exact hall q (List.mem_cons_of_mem p hq)
          · intro _ hne htrue
            rw [hstep] at htrue ⊢
            have hne2 : ∀ q ∈ rest, fs1 q ≠ some [] := by
              intro q hq
              rw [hsame q hq]
              exact hne q (List.mem_cons_of_mem p hq)
            have hres := ihr.2.1 rfl hne2 htrue
            rw [hres]
            have hmaps : rest.map (fun q => (fs1 q).getD [])
                = rest.map (fun q => (fs q).getD []) :=
              List.map_congr_left (fun q hq => by rw [hsame q hq])
            rw [hmaps]
            simp [hfp, List.append_assoc]
          · intro q hq
            rw [hstep]
            rw [ihr.2.2 q hq]
            simp [hfs1, updateFS, hq]

/-! ### Claim C2 -/

/-- Claim C2, amended: assembleFile returns true exactly when the local chunk
set has exactly `total_chunks` elements and every chunk artifact can be
opened; on success the per-file discovery table, including its lock entry, is
destroyed, and — provided every chunk artifact is non-empty — the assembled
file is the byte-for-byte concatenation of the chunk artifacts in increasing
index order.  (An empty artifact sets the output stream's failbit and every
later chunk is silently dropped while true is still returned; see the
counterexample.)  The bounds on `file_chunks` reflect its C++ `int` type. -/
theorem assembleFile_spec (fs : FS) (st : FMState) (file_name : String)
    (h0 : 0 ≤ st.file_chunks file_name)
    (h1 : st.file_chunks file_name < 2 ^ 31) :
    ((assembleFile fs st file_name).1 = true ↔
      ((st.local_chunks file_name).card = (st.file_chunks file_name).toNat ∧
        ∀ i : Nat, i < (st.file_chunks file_name).toNat →
          fs (getChunkPath st file_name (Int.ofNat i)) ≠ none))
    ∧ ((assembleFile fs st file_name).1 = true →
        ((∀ i : Nat, i < (st.file_chunks file_name).toNat →
            fs (getChunkPath st file_name (Int.ofNat i)) ≠ some []) →
          (assembleFile fs st file_name).2.1 (st.directory ++ "/" ++ file_name) =
            some (((List.range (st.file_chunks file_name).toNat).map
              (fun i => (fs (getChunkPath st file_name (Int.ofNat i))).getD [])).flatten))
        ∧ (assembleFile fs st file_name).2.2.chunk_location_info file_name = none
        ∧ (assembleFile fs st file_name).2.2.chunk_location_info_mutex file_name
            = false) := by
  have hcast : intToSizeT (st.file_chunks file_name)
      = (st.file_chunks file_name).toNat := by
    unfold intToSizeT
    omega
  by_cases hcard :
      (st.local_chunks file_name).card = intToSizeT (st.file_chunks file_name)
  · -- the chunk set is complete; behaviour is decided by the chunk files
    set n := (st.file_chunks file_name).toNat with hn
    set out_path := st.directory ++ "/" ++ file_name with hout
    set paths := (List.range n).map (fun i => getChunkPath st file_name (Int.ofNat i))
      with hpaths
    have hne : ∀ p ∈ paths, p ≠ out_path := by
      intro p hp
      rcases List.mem_map.mp hp with ⟨i, _, hip⟩
      rw [← hip]
      exact getChunkPath_ne_output st file_name (Int.ofNat i)
    set fs1 : FS := updateFS fs out_path (some []) with hfs1
    have hsame : ∀ q ∈ paths, fs1 q = fs q := by
      intro q hq
      simp [hfs1, updateFS, hne q hq]
    have hout0 : fs1 out_path = some [] := by simp [hfs1, updateFS]
    have hA := appendChunks_spec out_path paths fs1 false [] hout0 hne
    have hred : assembleFile fs st file_name =
        (if (appendChunks out_path fs1 false paths).1 then
          (true, (appendChunks out_path fs1 false paths).2,
            clearChunkLocationInfo st file_name)
        else (false, (appendChunks out_path fs1 false paths).2, st)) := by
      unfold assembleFile
      rw [if_pos hcard]
    have hexists : (∀ p ∈ paths, fs1 p ≠ none) ↔
        (∀ i : Nat, i < n → fs (getChunkPath st file_name (Int.ofNat i)) ≠ none) := by
      constructor
      · intro hall i hi
        have hmem : getChunkPath st file_name (Int.ofNat i) ∈ paths := by
          rw [hpaths]
          exact List.mem_map.mpr ⟨i, List.mem_range.mpr hi, rfl⟩
        rw [← hsame _ hmem]
        exact hall _ hmem
      · intro hall p hp
        rcases List.mem_map.mp hp with ⟨i, hi, hip⟩
        rw [hsame p hp, ← hip]
        exact hall i (List.mem_range.mp hi)
    constructor
    · rw [hred]
      by_cases hb : (appendChunks out_path fs1 false paths).1
      · rw [if_pos hb]
        simp only [true_iff]
        refine ⟨by rw [hcard, hcast], ?_⟩
        rw [← hexists]
        exact (hA.1).mp hb
      · rw [if_neg hb]
        simp only [Bool.false_eq_true, false_iff]
        intro hcon
        exact hb ((hA.1).mpr (hexists.mpr hcon.2))
    · rw [hred]
      by_cases hb : (appendChunks out_path fs1 false paths).1
      · rw [if_pos hb]
        intro _
        refine ⟨?_, by simp [clearChunkLocationInfo], by simp [clearChunkLocationInfo]⟩
        intro hnonempty
        have hne2 : ∀ p ∈ paths, fs1 p ≠ some [] := by
          intro p hp
          rcases List.mem_map.mp hp with ⟨i, hi, hip⟩
          rw [hsame p hp, ← hip]
          exact hnonempty i (List.mem_range.mp hi)
        have hres := hA.2.1 rfl hne2 hb
        simp only
        rw [hres]
        have hmaps : paths.map (fun q => (fs1 q).getD []) =
            (List.range n).map
              (fun i => (fs (getChunkPath st file_name (Int.ofNat i))).getD []) := by
          rw [hpaths, List.map_map]
          exact List.map_congr_left (fun i hi => by
            simp only [Function.comp]
            rw [hsame _ (List.mem_map.mpr ⟨i, hi, rfl⟩)])
        rw [hmaps]
        simp
      · rw [if_neg hb]
        intro hfalse
        simp at hfalse
  · -- the chunk set is incomplete: nothing is assembled
    have hred : assembleFile fs st file_name = (false, fs, st) := by
      unfold assembleFile
      rw [if_neg hcard]
    rw [hred]
    refine ⟨?_, ?_⟩
    · simp only [Bool.false_eq_true, false_iff, not_and]
      intro hc
      exact absurd (by rw [hc, hcast]) hcard
    · intro hfalse
      simp at hfalse

/-- A file system holding the two chunk artifacts of a 2-chunk file. -/
def exAfs : FS := fun p =>
  if p = "./src/1/book.txt.ch0" then some ['a', 'b']
  else if p = "./src/1/book.txt.ch1" then some ['c']
  else none

/-- A file-manager state in which book.txt (2 chunks) is complete and has
live discovery-table state. -/
def exAfm : FMState :=
  { peer_id := "1", directory := "./src/1",
    local_chunks := fun f => if f = "book.txt" then {0, 1} else ∅,
    file_chunks := fun f => if f = "book.txt" then 2 else 0,
    chunk_location_info := fun f => if f = "book.txt" then some [[], []] else none,
    chunk_location_info_mutex := fun f => f = "book.txt" }

/-- Witness for C2: on the concrete complete 2-chunk state the theorem's
hypotheses hold and assembly succeeds, concatenates, and destroys the
discovery state. -/
theorem assembleFile_spec_witness :
    (assembleFile exAfs exAfm "book.txt").1 = true
    ∧ (assembleFile exAfs exAfm "book.txt").2.1
        (exAfm.directory ++ "/" ++ "book.txt") = some ['a', 'b', 'c']
    ∧ (assembleFile exAfs exAfm "book.txt").2.2.chunk_location_info "book.txt"
        = none := by
  have h := assembleFile_spec exAfs exAfm "book.txt" (by decide) (by decide)
  have h1 : (assembleFile exAfs exAfm "book.txt").1 = true := by
    rw [h.1]
    exact ⟨by decide, by decide⟩
  have h2 := h.2 h1
  refine ⟨h1, ?_, h2.2.1⟩
  rw [h2.1 (by decide)]
  rfl

/-- A file system where the first chunk artifact of book.txt is empty and the
second is not. -/
def c2fs : FS := fun p =>
  if p = "./src/1/book.txt.ch0" then some []
  else if p = "./src/1/book.txt.ch1" then some ['c']
  else none

/-- Counterexample to C2 as stated: with chunk artifact 0 empty and chunk
artifact 1 holding a byte, assembly still returns true, but the output file
is not the byte-for-byte concatenation of the artifacts — inserting the
empty artifact's streambuf set the output stream's failbit, so the contents
of chunk 1 were silently dropped. -/
theorem assembleFile_concat_counterexample :
    (assembleFile c2fs exAfm "book.txt").1 = true
    ∧ (assembleFile c2fs exAfm "book.txt").2.1
        (exAfm.directory ++ "/" ++ "book.txt")
      ≠ some (((List.range (exAfm.file_chunks "book.txt").toNat).map
          (fun i => (c2fs (getChunkPath exAfm "book.txt" (Int.ofNat i))).getD
            [])).flatten) := by
  refine ⟨by decide, by decide⟩

/-! ### Claim C4 -/

/-- Claim C4: an inbound DISCOVERY whose origin endpoint equals the receiving
peer's own (ip, control port) triggers no local action: no RESPONSE to anyone
and no re-emission to any neighbor, whatever the TTL and the local chunks. -/
theorem discovery_from_self_dropped (ust : UDPServerState) (fm : FMState)
    (file_name : String) (total_chunks ttl : Int) (origin : PeerInfo)
    (h1 : origin.ip = ust.ip) (h2 : origin.port = ust.port) :
    processChunkDiscoveryMessage ust fm file_name total_chunks ttl origin = [] := by
  unfold processChunkDiscoveryMessage
  rw [if_neg]
  push_neg
  exact ⟨h1, h2⟩

/-- A UDP server state used to instantiate handler theorems. -/
def exUst : UDPServerState :=
  { ip := "10.0.0.1", port := 9000, tcp_port := 10000, peer_id := 1,
    transfer_speed := 50, udpNeighbors := [("10.0.0.2", 9001)],
    processing_active_map := fun _ => false }

/-- A file-manager state holding chunk 0 of book.txt. -/
def exFm : FMState :=
  { peer_id := "1", directory := "./src/1",
    local_chunks := fun f => if f = "book.txt" then {0} else ∅,
    file_chunks := fun _ => 0,
    chunk_location_info := fun _ => none,
    chunk_location_info_mutex := fun _ => false }

/-- Witness for C4 at a concrete self-originated DISCOVERY with positive TTL
received by a peer that does hold a chunk of the file. -/
theorem discovery_from_self_dropped_witness :
    processChunkDiscoveryMessage exUst exFm "book.txt" 2 3 ⟨"10.0.0.1", 9000⟩ = [] :=
  discovery_from_self_dropped exUst exFm "book.txt" 2 3 ⟨"10.0.0.1", 9000⟩ rfl rfl

/-! ### Claim C5 -/

/-- Claim C5: a RESPONSE message processed while the response window of its
file is closed is dropped: the file-manager state (in particular the
discovery table) is unchanged and nothing is sent. -/
theorem response_window_closed_drops (ust : UDPServerState) (fm : FMState)
    (message : String) (sender : PeerInfo) (file_name : String) (rest : List String)
    (htok : splitTokens message = "RESPONSE" :: file_name :: rest)
    (hwin : ust.processing_active_map file_name = false) :
    processMessage ust fm message sender = (fm, []) := by
  unfold processMessage
  rw [htok]
  simp [hwin]

/-- Witness for C5: a concrete well-formed RESPONSE for book.txt processed by
a peer whose window for book.txt is closed. -/
theorem response_window_closed_drops_witness :
    processMessage exUst exFm "RESPONSE book.txt 50 0 1 " ⟨"10.0.0.2", 9001⟩
      = (exFm, []) :=
  response_window_closed_drops exUst exFm "RESPONSE book.txt 50 0 1 "
    ⟨"10.0.0.2", 9001⟩ "book.txt" ["50", "0", "1"] (by decide) rfl

/-! ### Claim C10 -/

/-- Claim C10: when the chunk artifact cannot be opened for writing,
saveChunk returns with every state unchanged — the chunk id is not inserted
and no assembly is attempted; when it opens, the bytes are written, the id is
inserted and only then is assembly attempted. -/
theorem saveChunk_open_failure_spec (fs : FS) (wr : String → Bool) (st : FMState)
    (file_name : String) (chunk : Int) (data : List Char) :
    (wr (getChunkPath st file_name chunk) = false →
      saveChunk fs wr st file_name chunk data = (false, fs, st))
    ∧ (wr (getChunkPath st file_name chunk) = true →
      saveChunk fs wr st file_name chunk data =
        assembleFile (updateFS fs (getChunkPath st file_name chunk) (some data))
          { st with local_chunks := fun f =>
              if f = file_name then insert chunk (st.local_chunks f)
              else st.local_chunks f }
          file_name
      ∧ (saveChunk fs wr st file_name chunk data).2.2.local_chunks file_name
          = insert chunk (st.local_chunks file_name)) := by
  constructor
  · intro hw
    unfold saveChunk
    rw [if_pos hw]
  · intro hw
    have heq : saveChunk fs wr st file_name chunk data =
        assembleFile (updateFS fs (getChunkPath st file_name chunk) (some data))
          { st with local_chunks := fun f =>
              if f = file_name then insert chunk (st.local_chunks f)
              else st.local_chunks f }
          file_name := by
      unfold saveChunk
      simp [hw]
    refine ⟨heq, ?_⟩
    rw [heq, assembleFile_local_chunks]
    simp

/-- Witness for C10 at a concrete unwritable path (and, through the same
theorem, nothing else is needed: the hypothesis of the first conjunct is
discharged at `wr = fun _ => false`). -/
theorem saveChunk_open_failure_spec_witness :
    saveChunk (fun _ => none) (fun _ => false) exFm "book.txt" 1 ['x']
      = (false, (fun _ => none), exFm) :=
  (saveChunk_open_failure_spec (fun _ => none) (fun _ => false) exFm
    "book.txt" 1 ['x']).1 rfl

/-! ### Block framing lemmas (for C7 and C9) -/

/-- splitBlocks on the empty buffer produces no blocks. -/
lemma splitBlocks_nil (transfer_speed : Nat) : splitBlocks transfer_speed [] = [] := by
  rw [splitBlocks]
  simp

/-- splitBlocks unfolding on a non-empty buffer with positive speed. -/
lemma splitBlocks_pos (transfer_speed : Nat) (l : List Char)
    (hs : transfer_speed ≠ 0) (hl : l ≠ []) :
    splitBlocks transfer_speed l =
      l.take transfer_speed :: splitBlocks transfer_speed (l.drop transfer_speed) := by
  rw [splitBlocks]
  rw [if_neg]
  push_neg
  exact ⟨hs, hl⟩

/-- Auxiliary: with positive speed the blocks concatenate back to the buffer. -/
lemma splitBlocks_flatten_aux (transfer_speed : Nat) (hs : transfer_speed ≠ 0) :
    ∀ (n : Nat) (l : List Char), l.length ≤ n →
      (splitBlocks transfer_speed l).flatten = l := by
  intro n
  induction n with
  | zero =>
    intro l hl
    have h : l = [] := List.eq_nil_of_length_eq_zero (Nat.le_zero.mp hl)
    rw [h, splitBlocks_nil]
    rfl
  | succ n ih =>
    intro l hl
    by_cases hnil : l = []
    · rw [hnil, splitBlocks_nil]
      rfl
    · rw [splitBlocks_pos transfer_speed l hs hnil, List.flatten_cons]
      have hdrop : (l.drop transfer_speed).length ≤ n := by
        rw [List.length_drop]
        have hpos : 0 < l.length := List.length_pos.mpr hnil
        omega
      rw [ih (l.drop transfer_speed) hdrop]
      exact List.take_append_drop transfer_speed l

/-- With positive speed the consecutive blocks concatenate back to the
buffer. -/
lemma splitBlocks_flatten (transfer_speed : Nat) (hs : transfer_speed ≠ 0)
    (l : List Char) : (splitBlocks transfer_speed l).flatten = l :=
  splitBlocks_flatten_aux transfer_speed hs l.length l le_rfl

/-- Every block is non-empty and at most `transfer_speed` bytes long. -/
lemma splitBlocks_blocks (transfer_speed : Nat) (hs : transfer_speed ≠ 0) :
    ∀ (n : Nat) (l : List Char), l.length ≤ n →
      ∀ b ∈ splitBlocks transfer_speed l, b.length ≤ transfer_speed ∧ b ≠ [] := by
  intro n
  induction n with
  | zero =>
    intro l hl b hb
    have h : l = [] := List.eq_nil_of_length_eq_zero (Nat.le_zero.mp hl)
    rw [h, splitBlocks_nil] at hb
    exact absurd hb (List.not_mem_nil b)
  | succ n ih =>
    intro l hl b hb
    by_cases hnil : l = []
    · rw [hnil, splitBlocks_nil] at hb
      exact absurd hb (List.not_mem_nil b)
    · rw [splitBlocks_pos transfer_speed l hs hnil] at hb
      rcases List.mem_cons.mp hb with hb1 | hb2
      · constructor
        · rw [hb1, List.length_take]
          omega
        · rw [hb1]
          intro hcon
          have hlen0 : (l.take transfer_speed).length = 0 := by
            rw [hcon]
            rfl
          rw [List.length_take] at hlen0
          have hpos : 0 < l.length := List.length_pos.mpr hnil
          omega
      · have hdrop : (l.drop transfer_speed).length ≤ n := by
          rw [List.length_drop]
          have hpos : 0 < l.length := List.length_pos.mpr hnil
          omega
        exact ih (l.drop transfer_speed) hdrop b hb2

/-- The number of blocks is the ceiling of buffer length over speed. -/
lemma splitBlocks_count (transfer_speed : Nat) (hs : transfer_speed ≠ 0) :
    ∀ (n : Nat) (l : List Char), l.length ≤ n →
      (splitBlocks transfer_speed l).length =
        (l.length + transfer_speed - 1) / transfer_speed := by
  intro n
  induction n with
  | zero =>
    intro l hl
    have h : l = [] := List.eq_nil_of_length_eq_zero (Nat.le_zero.mp hl)
    rw [h, splitBlocks_nil]
    simp only [List.length_nil, Nat.zero_add]
    exact (Nat.div_eq_of_lt (by omega)).symm
  | succ n ih =>
    intro l hl
    by_cases hnil : l = []
    · rw [hnil, splitBlocks_nil]
      simp only [List.length_nil, List.length_nil, Nat.zero_add]
      exact (Nat.div_eq_of_lt (by omega)).symm
    · rw [splitBlocks_pos transfer_speed l hs hnil, List.length_cons]
      have hpos : 0 < l.length := List.length_pos.mpr hnil
      have hdrop : (l.drop transfer_speed).length ≤ n := by
        rw [List.length_drop]
        omega
      rw [ih (l.drop transfer_speed) hdrop, List.length_drop]
      have e1 : l.length + transfer_speed - 1 = (l.length - 1) + transfer_speed := by
        omega
      rw [e1, Nat.add_div_right _ (Nat.pos_of_ne_zero hs)]
      rcases le_or_lt l.length transfer_speed with hle | hlt
      · have e2 : l.length - transfer_speed = 0 := by omega
        rw [e2]
        have e3 : (0 + transfer_speed - 1) / transfer_speed = 0 :=
          Nat.div_eq_of_lt (by omega)
        have e4 : (l.length - 1) / transfer_speed = 0 :=
          Nat.div_eq_of_lt (by omega)
        rw [e3, e4]
      · have e2 : l.length - transfer_speed + transfer_speed - 1 = l.length - 1 := by
          omega
        rw [e2, Nat.add_comm]

/-- The control frame is always exactly 1024 bytes. -/
lemma buildControlFrame_length (control_message : List Char) :
    (buildControlFrame control_message).length = CONTROL_MESSAGE_MAX_SIZE := by
  simp only [buildControlFrame, List.length_append, List.length_take,
    List.length_replicate, CONTROL_MESSAGE_MAX_SIZE]
  omega

/-- Dropping a satisfied prefix of replicated elements. -/
lemma dropWhile_replicate_append (p : Char → Bool) (a : Char) (hp : p a = true) :
    ∀ (k : Nat) (x : List Char),
      List.dropWhile p (List.replicate k a ++ x) = List.dropWhile p x := by
  intro k
  induction k with
  | zero => intro x; rfl
  | succ k ih =>
    intro x
    rw [List.replicate_succ, List.cons_append, List.dropWhile_cons_of_pos hp]
    exact ih x

/-- dropWhile is the identity when the head (if any) fails the predicate. -/
lemma dropWhile_head_neg (p : Char → Bool) (l : List Char)
    (h : ∀ c ∈ l.head?, p c = false) : List.dropWhile p l = l := by
  cases l with
  | nil => rfl
  | cons c t =>
    have hc := h c rfl
    exact List.dropWhile_cons_of_neg (by rw [hc]; exact Bool.false_ne_true)

/-- The last element of a non-trivial replicate. -/
lemma getLast?_replicate_succ (k : Nat) (a : Char) :
    (List.replicate (k + 1) a).getLast? = some a := by
  induction k with
  | zero => rfl
  | succ k ih =>
    rw [List.replicate_succ, List.replicate_succ, List.getLast?_cons_cons,
      ← List.replicate_succ]
    exact ih

/-- Stripping the NUL tail of a NUL-padded message recovers the message, as
long as the message itself does not end in NUL. -/
lemma stripTrailingNuls_append_replicate (msg : List Char) (k : Nat)
    (hlast : ∀ c ∈ msg.getLast?, c ≠ NUL) :
    stripTrailingNuls (msg ++ List.replicate k NUL) = msg := by
  unfold stripTrailingNuls
  rw [List.reverse_append, List.reverse_replicate]
  rw [dropWhile_replicate_append _ NUL (by simp) k]
  rw [dropWhile_head_neg]
  · exact List.reverse_reverse msg
  · intro c hc
    rw [List.head?_reverse] at hc
    simp [hlast c hc]

/-- The frame of a header short enough to fit: the header itself, NUL-padded
to 1024 bytes. -/
lemma buildControlFrame_of_le (msg : List Char)
    (h : msg.length ≤ CONTROL_MESSAGE_MAX_SIZE - 1) :
    buildControlFrame msg =
      msg ++ List.replicate (CONTROL_MESSAGE_MAX_SIZE - msg.length) NUL := by
  unfold buildControlFrame
  simp only [min_eq_left h, List.take_length]

/-- The frame of an over-long header: only the first 1023 bytes survive. -/
lemma buildControlFrame_of_ge (msg : List Char)
    (h : CONTROL_MESSAGE_MAX_SIZE - 1 ≤ msg.length) :
    buildControlFrame msg =
      msg.take (CONTROL_MESSAGE_MAX_SIZE - 1)
        ++ List.replicate (CONTROL_MESSAGE_MAX_SIZE - (CONTROL_MESSAGE_MAX_SIZE - 1))
            NUL := by
  unfold buildControlFrame
  simp only [min_eq_right h]

/-! ### Claim C7 -/

/-- Claim C7, amended: a control header of length at most 1023 whose last
byte is not NUL (every actual "PUT ..." header qualifies), sent through the
fixed 1024-byte NUL-padded framing in rate-paced blocks and reassembled on
the receiving side, equals the original after stripping the trailing NUL
padding.  (At length exactly 1024 the sender truncates the header to 1023
bytes, see the counterexample.) -/
theorem control_frame_roundtrip (transfer_speed : Nat) (msg : List Char)
    (hs : transfer_speed ≠ 0)
    (hlen : msg.length ≤ CONTROL_MESSAGE_MAX_SIZE - 1)
    (hlast : ∀ c ∈ msg.getLast?, c ≠ NUL) :
    stripTrailingNuls ((splitBlocks transfer_speed (buildControlFrame msg)).flatten)
      = msg := by
  rw [splitBlocks_flatten transfer_speed hs, buildControlFrame_of_le msg hlen]
  exact stripTrailingNuls_append_replicate msg _ hlast

/-- Witness for C7 at a concrete header and speed. -/
theorem control_frame_roundtrip_witness :
    stripTrailingNuls
        ((splitBlocks 64 (buildControlFrame ('P' :: 'U' :: 'T' :: []))).flatten)
      = ('P' :: 'U' :: 'T' :: []) :=
  control_frame_roundtrip 64 ('P' :: 'U' :: 'T' :: []) (by decide) (by decide)
    (by decide)

/-- A header of length exactly 1024 (all bytes 'a'). -/
def oversizedHeader : List Char := List.replicate CONTROL_MESSAGE_MAX_SIZE 'a'

/-- Counterexample to C7 as stated: this header has length at most 1024, yet
the round trip (even after stripping NUL padding) loses its last byte — the
sender copies only 1023 bytes into the frame. -/
theorem control_frame_roundtrip_counterexample :
    oversizedHeader.length ≤ CONTROL_MESSAGE_MAX_SIZE ∧
    stripTrailingNuls ((splitBlocks 64 (buildControlFrame oversizedHeader)).flatten)
      ≠ oversizedHeader := by
  have hlen : oversizedHeader.length = CONTROL_MESSAGE_MAX_SIZE := by
    unfold oversizedHeader
    rw [List.length_replicate]
  constructor
  · rw [hlen]
  · rw [splitBlocks_flatten 64 (by decide)]
    have hge : CONTROL_MESSAGE_MAX_SIZE - 1 ≤ oversizedHeader.length := by
      rw [hlen]
      omega
    rw [buildControlFrame_of_ge oversizedHeader hge]
    have htake : oversizedHeader.take (CONTROL_MESSAGE_MAX_SIZE - 1)
        = List.replicate (CONTROL_MESSAGE_MAX_SIZE - 1) 'a' := by
      unfold oversizedHeader
      rw [List.take_replicate]
      have hmm : min (CONTROL_MESSAGE_MAX_SIZE - 1) CONTROL_MESSAGE_MAX_SIZE
          = CONTROL_MESSAGE_MAX_SIZE - 1 := by omega
      rw [hmm]
    rw [htake]
    have hstrip := stripTrailingNuls_append_replicate
      (List.replicate (CONTROL_MESSAGE_MAX_SIZE - 1) 'a')
      (CONTROL_MESSAGE_MAX_SIZE - (CONTROL_MESSAGE_MAX_SIZE - 1))
      (by
        intro c hc
        have h4 : CONTROL_MESSAGE_MAX_SIZE - 1 = 1022 + 1 := by decide
        rw [h4, getLast?_replicate_succ] at hc
        rw [Option.mem_some_iff] at hc
        subst hc
        decide)
    rw [hstrip]
    intro hcon
    have hl2 := congrArg List.length hcon
    rw [List.length_replicate, hlen] at hl2
    have h12 : (1 : Nat) ≤ CONTROL_MESSAGE_MAX_SIZE ∧ CONTROL_MESSAGE_MAX_SIZE = 1024 := by
      constructor <;> decide
    omega

/-! ### Claim C9 -/

/-- Claim C9: serving a chunk sends the 1024-byte control frame and then the
payload, each as consecutive blocks of at most `transfer_speed` bytes (the
payload in exactly ceil(size/speed) non-empty blocks whose concatenation is
the payload), with one one-second sleep after every block; consequently at
rate 64 a 256-byte payload takes 4 blocks, i.e. 3 sleeps strictly between
the sending of its first and last byte. -/
theorem rate_pacing_blocks (transfer_speed : Nat) (control_message payload : List Char)
    (hs : 0 < transfer_speed) :
    (∀ b ∈ (sendChunkFraming transfer_speed control_message payload).1,
        b.length ≤ transfer_speed)
    ∧ (sendChunkFraming transfer_speed control_message payload).1.flatten
        = buildControlFrame control_message
    ∧ (buildControlFrame control_message).length = CONTROL_MESSAGE_MAX_SIZE
    ∧ (∀ b ∈ (sendChunkFraming transfer_speed control_message payload).2,
        b.length ≤ transfer_speed ∧ b ≠ [])
    ∧ (sendChunkFraming transfer_speed control_message payload).2.flatten = payload
    ∧ (sendChunkFraming transfer_speed control_message payload).2.length
        = (payload.length + transfer_speed - 1) / transfer_speed
    ∧ (transfer_speed = 64 → payload.length = 256 →
        (sendChunkFraming transfer_speed control_message payload).2.length - 1 = 3) := by
  have hs' : transfer_speed ≠ 0 := Nat.pos_iff_ne_zero.mp hs
  refine ⟨?_, ?_, buildControlFrame_length control_message, ?_, ?_, ?_, ?_⟩
  · intro b hb
    exact (splitBlocks_blocks transfer_speed hs' _ _ le_rfl b hb).1
  · exact splitBlocks_flatten transfer_speed hs' _
  · intro b hb
    exact splitBlocks_blocks transfer_speed hs' _ _ le_rfl b hb
  · exact splitBlocks_flatten transfer_speed hs' _
  · exact splitBlocks_count transfer_speed hs' _ _ le_rfl
  · intro h64 h256
    have hc := splitBlocks_count transfer_speed hs' payload.length payload le_rfl
    unfold sendChunkFraming
    simp only
    rw [hc, h64, h256]

/-- Witness for C9: rate 64, a 256-byte payload, a concrete header. -/
theorem rate_pacing_blocks_witness :
    (sendChunkFraming 64 ('P' :: 'U' :: 'T' :: []) (List.replicate 256 'x')).2.length - 1
      = 3 := by
  have h := rate_pacing_blocks 64 ('P' :: 'U' :: 'T' :: [])
    (List.replicate 256 'x') (by decide)
  exact h.2.2.2.2.2.2 rfl (by rw [List.length_replicate])

/-! ### Claim C3 -/

/-- The sorted list of locally held chunks is empty exactly when the local
chunk set is. -/
lemma getAvailableChunks_eq_nil (st : FMState) (file_name : String) :
    getAvailableChunks st file_name = [] ↔ st.local_chunks file_name = ∅ := by
  unfold getAvailableChunks
  constructor
  · intro h
    have hlen := Finset.length_sort (α := Int) (· ≤ ·) (s := st.local_chunks file_name)
    rw [h] at hlen
    exact Finset.card_eq_zero.mp hlen.symm
  · intro h
    rw [h]
    exact Finset.sort_empty _

/-- A RESPONSE wire message is never a DISCOVERY wire message (their leading
command tokens differ). -/
lemma buildChunkResponseMessage_ne_discovery (ust : UDPServerState)
    (f1 : String) (cs : List Int) (f2 : String) (t1 t2 : Int) (pi : PeerInfo) :
    buildChunkResponseMessage ust f1 cs ≠ buildChunkDiscoveryMessage f2 t1 t2 pi := by
  intro h
  have h2 := congrArg (fun s : String => s.data.head?) h
  simp only [buildChunkResponseMessage, buildChunkDiscoveryMessage,
    String.data_append] at h2
  simp only [List.cons_append, List.head?_cons] at h2
  exact absurd (Option.some.inj h2) (by decide)

/-- Claim C3: for a DISCOVERY whose origin differs from the receiver's own
(ip, port): a RESPONSE listing exactly the receiver's locally held chunk ids,
tagged with its own advertised rate, goes to the origin iff the receiver
holds at least one chunk of the file; and the DISCOVERY is re-emitted to
every neighbor with the TTL decremented and the origin preserved iff the
received TTL is positive — with TTL ≤ 0 every send (if any) is the RESPONSE,
and in general every send is one of these two kinds. -/
theorem discovery_response_and_forward (ust : UDPServerState) (fm : FMState)
    (file_name : String) (total_chunks ttl : Int) (origin : PeerInfo)
    (h : origin.ip ≠ ust.ip ∨ origin.port ≠ ust.port) :
    (((origin.ip, origin.port,
        buildChunkResponseMessage ust file_name (getAvailableChunks fm file_name))
        ∈ processChunkDiscoveryMessage ust fm file_name total_chunks ttl origin)
      ↔ (fm.local_chunks file_name).Nonempty)
    ∧ (ttl > 0 → ∀ nb ∈ ust.udpNeighbors,
        (nb.1, nb.2, buildChunkDiscoveryMessage file_name total_chunks (ttl - 1) origin)
          ∈ processChunkDiscoveryMessage ust fm file_name total_chunks ttl origin)
    ∧ (¬ ttl > 0 →
        ∀ d ∈ processChunkDiscoveryMessage ust fm file_name total_chunks ttl origin,
          d = (origin.ip, origin.port,
            buildChunkResponseMessage ust file_name (getAvailableChunks fm file_name)))
    ∧ (∀ d ∈ processChunkDiscoveryMessage ust fm file_name total_chunks ttl origin,
        d = (origin.ip, origin.port,
          buildChunkResponseMessage ust file_name (getAvailableChunks fm file_name))
        ∨ (ttl > 0 ∧ ∃ nb ∈ ust.udpNeighbors,
            d = (nb.1, nb.2,
              buildChunkDiscoveryMessage file_name total_chunks (ttl - 1) origin))) := by
  have hred : processChunkDiscoveryMessage ust fm file_name total_chunks ttl origin =
      sendChunkResponseMessage ust fm file_name origin
        ++ (if ttl > 0 then
              sendChunkDiscoveryMessage ust file_name total_chunks (ttl - 1) origin
            else []) := by
    unfold processChunkDiscoveryMessage
    rw [if_pos h]
  have hfwd_shape : ∀ d ∈ (if ttl > 0 then
        sendChunkDiscoveryMessage ust file_name total_chunks (ttl - 1) origin
      else []),
      ttl > 0 ∧ ∃ nb ∈ ust.udpNeighbors,
        d = (nb.1, nb.2,
          buildChunkDiscoveryMessage file_name total_chunks (ttl - 1) origin) := by
    intro d hd
    by_cases ht : ttl > 0
    · rw [if_pos ht] at hd
      rcases List.mem_map.mp hd with ⟨nb, hnb, hdn⟩
      exact ⟨ht, nb, hnb, hdn.symm⟩
    · rw [if_neg ht] at hd
      exact absurd hd (List.not_mem_nil d)
  have hresp_shape : ∀ d ∈ sendChunkResponseMessage ust fm file_name origin,
      d = (origin.ip, origin.port,
        buildChunkResponseMessage ust file_name (getAvailableChunks fm file_name)) := by
    intro d hd
    unfold sendChunkResponseMessage at hd
    by_cases hav : getAvailableChunks fm file_name = []
    · rw [if_pos hav] at hd
      exact absurd hd (List.not_mem_nil d)
    · rw [if_neg hav] at hd
      rcases List.mem_singleton.mp hd with h1
      exact h1
  refine ⟨?_, ?_, ?_, ?_⟩
  · rw [hred]
    constructor
    · intro hmem
      rcases List.mem_append.mp hmem with h1 | h2
      · unfold sendChunkResponseMessage at h1
        by_cases hav : getAvailableChunks fm file_name = []
        · rw [if_pos hav] at h1
          exact absurd h1 (List.not_mem_nil _)
        · rw [Finset.nonempty_iff_ne_empty]
          intro hemp
          exact hav ((getAvailableChunks_eq_nil fm file_name).mpr hemp)
      · rcases hfwd_shape _ h2 with ⟨_, nb, _, hdn⟩
        have := congrArg (fun t : Send => t.2.2) hdn
        simp only at this
        exact absurd this (buildChunkResponseMessage_ne_discovery ust file_name
          (getAvailableChunks fm file_name) file_name total_chunks (ttl - 1) origin)
    · intro hne
      apply List.mem_append_left
      unfold sendChunkResponseMessage
      have hav : getAvailableChunks fm file_name ≠ [] := by
        intro hnil
        rw [Finset.nonempty_iff_ne_empty] at hne
        exact hne ((getAvailableChunks_eq_nil fm file_name).mp hnil)
      rw [if_neg hav]
      exact List.mem_singleton.mpr rfl
  · intro ht nb hnb
    rw [hred]
    apply List.mem_append_right
    rw [if_pos ht]
    exact List.mem_map.mpr ⟨nb, hnb, rfl⟩
  · intro ht d hd
    rw [hred] at hd
    rcases List.mem_append.mp hd with h1 | h2
    · exact hresp_shape d h1
    · exact absurd (hfwd_shape d h2).1 ht
  · intro d hd
    rw [hred] at hd
    rcases List.mem_append.mp hd with h1 | h2
    · exact Or.inl (hresp_shape d h1)
    · exact Or.inr (hfwd_shape d h2)

/-- Witness for C3: a concrete foreign-origin DISCOVERY with TTL 0 at a peer
holding chunk 0 of the file: the RESPONSE to the origin is among the sends. -/
theorem discovery_response_and_forward_witness :
    ((("10.0.0.3" : String), (9002 : Int),
        buildChunkResponseMessage exUst "book.txt" (getAvailableChunks exFm "book.txt"))
      ∈ processChunkDiscoveryMessage exUst exFm "book.txt" 2 0 ⟨"10.0.0.3", 9002⟩) := by
  have h := discovery_response_and_forward exUst exFm "book.txt" 2 0
    ⟨"10.0.0.3", 9002⟩ (Or.inl (by decide))
  exact h.1.mpr ⟨0, by decide⟩

/-! ### Claim C8 -/

/-- Claim C8, amended: loadMetadata returns the sentinel ("", -1, -1)
whenever the sidecar cannot be opened, and on a missing sidecar the caller
abandons the search completely — no state is touched and nothing is emitted.
(A sidecar that opens but is malformed does not yield the sentinel: failed
numeric extractions leave 0, so the caller proceeds; see the
counterexample.) -/
theorem metadata_missing_aborts (fs : FS) (ust : UDPServerState) (fm : FMState)
    (file_name : String)
    (h : fs (BASE_PATH ++ file_name ++ ".p2p") = none) :
    loadMetadata fs file_name = ("", -1, -1)
    ∧ searchFile fs ust fm file_name = (fs, ust, fm, []) := by
  have hmeta : loadMetadata fs file_name = ("", -1, -1) := by
    unfold loadMetadata
    rw [h]
  refine ⟨hmeta, ?_⟩
  unfold searchFile
  rw [hmeta]
  simp

/-- Witness for C8 on a file system with no sidecar at all. -/
theorem metadata_missing_aborts_witness :
    searchFile (fun _ => none) exUst exFm "book.txt"
      = ((fun _ => none), exUst, exFm, []) :=
  (metadata_missing_aborts (fun _ => none) exUst exFm "book.txt" rfl).2

/-- A file system whose sidecar for book.txt opens but is malformed: the
declared name line is followed by non-numeric text, so both numeric
extractions fail. -/
def c8fs : FS := fun p =>
  if p = BASE_PATH ++ "book.txt" ++ ".p2p" then some ("book.txt\nabc".data)
  else none

/-- Counterexample to C8 as stated: with a present-but-malformed sidecar the
sentinel is not returned (the numeric fields read as 0), and the caller does
not abandon the search — per-file discovery state is initialized and a
DISCOVERY for the file is emitted (the peer holds a chunk, so assembly
fails and flooding proceeds). -/
theorem metadata_malformed_not_aborted :
    c8fs (BASE_PATH ++ "book.txt" ++ ".p2p") ≠ none
    ∧ loadMetadata c8fs "book.txt" = ("book.txt", 0, 0)
    ∧ (searchFile c8fs exUst exFm "book.txt").2.2.1.chunk_location_info "book.txt"
        ≠ none
    ∧ (searchFile c8fs exUst exFm "book.txt").2.2.2 ≠ [] := by
  refine ⟨by decide, by decide, by decide, by decide⟩

/-! ### Claim C1 -/

/-- Assignment count of a provider's key in the running map. -/
abbrev assignedCount (m : Assign) (p : ChunkLocationInfo) : Nat :=
  (m (peerKey p)).length

/-- Left fold computing the first provider of minimal assigned count. -/
def firstMinFold (m : Assign) (l : List ChunkLocationInfo)
    (sel : ChunkLocationInfo) : ChunkLocationInfo :=
  l.foldl (fun s q => if assignedCount m q < assignedCount m s then q else s) sel

/-- firstMinFold unfolding on a cons. -/
lemma firstMinFold_cons (m : Assign) (r : ChunkLocationInfo)
    (rest : List ChunkLocationInfo) (sel : ChunkLocationInfo) :
    firstMinFold m (r :: rest) sel =
      firstMinFold m rest
        (if assignedCount m r < assignedCount m sel then r else sel) := rfl

/-- The fold result never has a larger count than the seed. -/
lemma firstMinFold_le (m : Assign) :
    ∀ (l : List ChunkLocationInfo) (sel : ChunkLocationInfo),
      assignedCount m (firstMinFold m l sel) ≤ assignedCount m sel := by
  intro l
  induction l with
  | nil => intro sel; exact le_rfl
  | cons q rest ih =>
    intro sel
    rw [firstMinFold_cons]
    by_cases hq : assignedCount m q < assignedCount m sel
    · rw [if_pos hq]
      exact le_trans (ih q) (le_of_lt hq)
    · rw [if_neg hq]
      exact ih sel

/-- The code's selection loop equals the fold, when seeded with the seed's
own count. -/
lemma selectLoop_eq_firstMinFold (m : Assign) :
    ∀ (l : List ChunkLocationInfo) (sel : ChunkLocationInfo),
      selectLoop m l sel (assignedCount m sel) = firstMinFold m l sel := by
  intro l
  induction l with
  | nil => intro sel; rfl
  | cons q rest ih =>
    intro sel
    rw [firstMinFold_cons]
    show (if assignedCount m q < assignedCount m sel then
        selectLoop m rest q (assignedCount m q)
      else selectLoop m rest sel (assignedCount m sel)) = _
    by_cases hq : assignedCount m q < assignedCount m sel
    · rw [if_pos hq, if_pos hq, ih q]
    · rw [if_neg hq, if_neg hq, ih sel]

/-- Exchanging the seed of the fold for a seed of smaller or equal count. -/
lemma firstMinFold_seed (m : Assign) :
    ∀ (l : List ChunkLocationInfo) (p q : ChunkLocationInfo),
      assignedCount m p ≤ assignedCount m q →
      firstMinFold m l p =
        if assignedCount m (firstMinFold m l q) < assignedCount m p
        then firstMinFold m l q else p := by
  intro l
  induction l with
  | nil =>
    intro p q hpq
    show p = if assignedCount m q < assignedCount m p then q else p
    rw [if_neg (by omega)]
  | cons r rest ih =>
    intro p q hpq
    rw [firstMinFold_cons, firstMinFold_cons]
    by_cases hrp : assignedCount m r < assignedCount m p
    · rw [if_pos hrp]
      have hrq : assignedCount m r < assignedCount m q := lt_of_lt_of_le hrp hpq
      rw [if_pos hrq]
      have hle := firstMinFold_le m rest r
      rw [if_pos (lt_of_le_of_lt hle hrp)]
    · rw [if_neg hrp]
      by_cases hrq : assignedCount m r < assignedCount m q
      · rw [if_pos hrq]
        exact ih p r (by omega)
      · rw [if_neg hrq]
        exact ih p q hpq

/-- The claim's reference selection equals the fold. -/
lemma bestProvider_eq_firstMinFold (m : Assign) :
    ∀ (l : List ChunkLocationInfo) (p : ChunkLocationInfo),
      bestProvider m p l = firstMinFold m l p := by
  intro l
  induction l with
  | nil => intro p; rfl
  | cons q rest ih =>
    intro p
    show (if assignedCount m (bestProvider m q rest) < assignedCount m p
        then bestProvider m q rest else p) = _
    rw [ih q, firstMinFold_cons]
    by_cases hqp : assignedCount m q < assignedCount m p
    · rw [if_pos hqp]
      have hle := firstMinFold_le m rest q
      rw [if_pos (lt_of_le_of_lt hle hqp)]
    · rw [if_neg hqp]
      exact (firstMinFold_seed m rest p q (by omega)).symm

/-- The code's whole inner loop (seeded with the fastest provider and its
count, then walking the full sorted list) picks exactly the reference's best
provider. -/
lemma selectLoop_whole (m : Assign) (s0 : ChunkLocationInfo)
    (srest : List ChunkLocationInfo) :
    selectLoop m (s0 :: srest) s0 ((m (peerKey s0)).length)
      = bestProvider m s0 srest := by
  show (if assignedCount m s0 < assignedCount m s0 then
      selectLoop m srest s0 (assignedCount m s0)
    else selectLoop m srest s0 (assignedCount m s0)) = _
  rw [if_neg (lt_irrefl _), selectLoop_eq_firstMinFold]
  exact (bestProvider_eq_firstMinFold m srest s0).symm

/-- Inserting preserves (and increments) the length. -/
lemma insertBySpeed_length (c : ChunkLocationInfo) :
    ∀ l : List ChunkLocationInfo, (insertBySpeed c l).length = l.length + 1 := by
  intro l
  induction l with
  | nil => rfl
  | cons d rest ih =>
    show (if c.transfer_speed > d.transfer_speed then c :: d :: rest
      else d :: insertBySpeed c rest).length = (d :: rest).length + 1
    by_cases hc : c.transfer_speed > d.transfer_speed
    · rw [if_pos hc]
      rfl
    · rw [if_neg hc]
      simp only [List.length_cons, ih]

/-- Sorting preserves the length. -/
lemma sortBySpeedDesc_length :
    ∀ l : List ChunkLocationInfo, (sortBySpeedDesc l).length = l.length := by
  intro l
  induction l with
  | nil => rfl
  | cons c rest ih =>
    show (insertBySpeed c (sortBySpeedDesc rest)).length = _
    rw [insertBySpeed_length, ih]
    rfl

/-- A non-empty provider list sorts to a non-empty list. -/
lemma sortBySpeedDesc_ne_nil (l : List ChunkLocationInfo) (h : l ≠ []) :
    sortBySpeedDesc l ≠ [] := by
  intro hc
  have := sortBySpeedDesc_length l
  rw [hc] at this
  exact h (List.eq_nil_of_length_eq_zero this.symm)

/-- The code's per-chunk step coincides with the reference per-chunk step. -/
lemma selectChunkStep_eq_ref (m : Assign) (ci : Int)
    (ps : List ChunkLocationInfo) :
    selectChunkStep m ci ps = refChunkStep m ci ps := by
  unfold selectChunkStep refChunkStep
  by_cases hps : ps = []
  · rw [if_pos hps, hps]
    rfl
  · rw [if_neg hps]
    cases hsort : sortBySpeedDesc ps with
    | nil => rfl
    | cons s0 srest =>
      show appendAssign m
          (peerKey (selectLoop m (s0 :: srest) s0 ((m (peerKey s0)).length))) ci = _
      rw [selectLoop_whole]

/-- The code's planner loop coincides with the reference loop. -/
lemma selectPeersAux_eq_ref :
    ∀ (table : List (List ChunkLocationInfo)) (idx : Int) (m : Assign),
      selectPeersAux table idx m = refSelectAux table idx m := by
  intro table
  induction table with
  | nil => intro idx m; rfl
  | cons ps rest ih =>
    intro idx m
    show selectPeersAux rest (idx + 1) (selectChunkStep m idx ps)
      = refSelectAux rest (idx + 1) (refChunkStep m idx ps)
    rw [selectChunkStep_eq_ref, ih]

/-- Membership in the map after a push_back. -/
lemma appendAssign_mem (m : Assign) (k0 : String) (v0 : Int) (k : String) (v : Int) :
    v ∈ appendAssign m k0 v0 k ↔ (v ∈ m k ∨ (k = k0 ∧ v = v0)) := by
  simp only [appendAssign]
  by_cases hk : k = k0 <;> simp [hk]

/-- A chunk step never touches membership of a different chunk index. -/
lemma selectChunkStep_mem (m : Assign) (ci : Int) (ps : List ChunkLocationInfo)
    (k : String) (v : Int) (hv : v ≠ ci) :
    (v ∈ selectChunkStep m ci ps k) ↔ v ∈ m k := by
  unfold selectChunkStep
  by_cases hps : ps = []
  · rw [if_pos hps]
  · rw [if_neg hps]
    cases hsort : sortBySpeedDesc ps with
    | nil => exact Iff.rfl
    | cons s0 srest =>
      show v ∈ appendAssign m
          (peerKey (selectLoop m (s0 :: srest) s0 ((m (peerKey s0)).length))) ci k ↔ _
      rw [appendAssign_mem]
      simp [hv]

/-- For a non-empty provider list the step is a push_back to some key. -/
lemma selectChunkStep_shape (m : Assign) (ci : Int)
    (ps : List ChunkLocationInfo) (hps : ps ≠ []) :
    ∃ k0, selectChunkStep m ci ps = appendAssign m k0 ci := by
  unfold selectChunkStep
  rw [if_neg hps]
  cases hsort : sortBySpeedDesc ps with
  | nil => exact absurd hsort (sortBySpeedDesc_ne_nil ps hps)
  | cons s0 srest =>
    exact ⟨peerKey (selectLoop m (s0 :: srest) s0 ((m (peerKey s0)).length)), rfl⟩

/-- Chunk indices below the running index keep their membership through the
rest of the planner loop. -/
lemma selectPeersAux_mem_lt :
    ∀ (table : List (List ChunkLocationInfo)) (idx : Int) (m : Assign)
      (k : String) (v : Int), v < idx →
      (v ∈ selectPeersAux table idx m k ↔ v ∈ m k) := by
  intro table
  induction table with
  | nil => intro idx m k v _; exact Iff.rfl
  | cons ps rest ih =>
    intro idx m k v hv
    show v ∈ selectPeersAux rest (idx + 1) (selectChunkStep m idx ps) k ↔ _
    rw [ih (idx + 1) _ k v (by omega)]
    exact selectChunkStep_mem m idx ps k v (by omega)

/-- A chunk whose provider list is empty is assigned to nobody. -/
lemma selectPeersAux_not_mem_empty_chunk :
    ∀ (table : List (List ChunkLocationInfo)) (idx : Int) (m : Assign) (i : Nat),
      i < table.length → table.getD i [] = [] →
      (∀ k, (idx + (i : Int)) ∉ m k) →
      ∀ k, (idx + (i : Int)) ∉ selectPeersAux table idx m k := by
  intro table
  induction table with
  | nil =>
    intro idx m i hi
    simp at hi
  | cons ps rest ih =>
    intro idx m i hi hempty hnot k
    cases i with
    | zero =>
      have hps : ps = [] := by simpa using hempty
      show (idx + ((0 : Nat) : Int)) ∉
        selectPeersAux rest (idx + 1) (selectChunkStep m idx ps) k
      rw [selectPeersAux_mem_lt rest (idx + 1) _ k _ (by omega)]
      rw [hps]
      have hstep : selectChunkStep m idx ([] : List ChunkLocationInfo) = m := by
        unfold selectChunkStep
        rw [if_pos rfl]
      rw [hstep]
      simpa using hnot k
    | succ j =>
      show (idx + ((j + 1 : Nat) : Int)) ∉
        selectPeersAux rest (idx + 1) (selectChunkStep m idx ps) k
      have hval : idx + ((j + 1 : Nat) : Int) = (idx + 1) + (j : Int) := by
        push_cast
        ring
      rw [hval]
      apply ih (idx + 1) _ j (by simpa using hi) (by simpa using hempty)
      intro k2
      rw [selectChunkStep_mem m idx ps k2 _ (by omega)]
      have h2 := hnot k2
      rw [hval] at h2
      exact h2

/-- A chunk with at least one provider is assigned to exactly one key. -/
lemma selectPeersAux_mem_unique :
    ∀ (table : List (List ChunkLocationInfo)) (idx : Int) (m : Assign) (i : Nat),
      i < table.length → table.getD i [] ≠ [] →
      (∀ k, (idx + (i : Int)) ∉ m k) →
      ∃ k, ((idx + (i : Int)) ∈ selectPeersAux table idx m k
        ∧ ∀ k2, (idx + (i : Int)) ∈ selectPeersAux table idx m k2 → k2 = k) := by
  intro table
  induction table with
  | nil =>
    intro idx m i hi
    simp at hi
  | cons ps rest ih =>
    intro idx m i hi hne hnot
    cases i with
    | zero =>
      have hps : ps ≠ [] := by simpa using hne
      rcases selectChunkStep_shape m idx ps hps with ⟨k0, hk0⟩
      refine ⟨k0, ?_, ?_⟩
      · show (idx + ((0 : Nat) : Int)) ∈
          selectPeersAux rest (idx + 1) (selectChunkStep m idx ps) k0
        rw [selectPeersAux_mem_lt rest (idx + 1) _ k0 _ (by omega), hk0,
          appendAssign_mem]
        right
        constructor
        · rfl
        · omega
      · intro k2 hk2
        rw [show selectPeersAux (ps :: rest) idx m =
            selectPeersAux rest (idx + 1) (selectChunkStep m idx ps) from rfl] at hk2
        rw [selectPeersAux_mem_lt rest (idx + 1) _ k2 _ (by omega), hk0,
          appendAssign_mem] at hk2
        rcases hk2 with h1 | h2
        · have := hnot k2
          simp only [Int.natCast_zero, add_zero] at this h1 ⊢
          exact absurd h1 this
        · exact h2.1
    | succ j =>
      have hval : idx + ((j + 1 : Nat) : Int) = (idx + 1) + (j : Int) := by
        push_cast
        ring
      have hnot2 : ∀ k, ((idx + 1) + (j : Int)) ∉ selectChunkStep m idx ps k := by
        intro k2
        rw [selectChunkStep_mem m idx ps k2 _ (by omega)]
        have h2 := hnot k2
        rw [hval] at h2
        exact h2
      rcases ih (idx + 1) (selectChunkStep m idx ps) j (by simpa using hi)
        (by simpa using hne) hnot2 with ⟨k, hk, huniq⟩
      refine ⟨k, ?_, ?_⟩
      · show (idx + ((j + 1 : Nat) : Int)) ∈
          selectPeersAux rest (idx + 1) (selectChunkStep m idx ps) k
        rw [hval]
        exact hk
      · intro k2 hk2
        apply huniq
        rw [← hval]
        exact hk2

/-- Claim C1: on any snapshot of a file's discovery table the planner returns
exactly the map computed by the claim's reference algorithm (chunks in index
order, a chunk's providers sorted by descending rate, least-loaded provider
wins with ties to the earlier position); every chunk with at least one
provider lands in exactly one provider's list and a provider-less chunk in
none; and in the concrete 4-chunk scenario with A at rate 100 and B at rate
50 the planner assigns chunks 0 and 2 to A and chunks 1 and 3 to B. -/
theorem planner_matches_reference (table : List (List ChunkLocationInfo)) :
    selectPeersForChunkDownload table = refSelectPeers table
    ∧ (∀ i : Nat, i < table.length →
        ((table.getD i [] = [] →
            ∀ k, (i : Int) ∉ selectPeersForChunkDownload table k)
         ∧ (table.getD i [] ≠ [] →
            ∃ k, ((i : Int) ∈ selectPeersForChunkDownload table k
              ∧ ∀ k2, (i : Int) ∈ selectPeersForChunkDownload table k2 → k2 = k))))
    ∧ selectPeersForChunkDownload
        (List.replicate 4 [⟨"ipA", 1, 100⟩, ⟨"ipB", 2, 50⟩])
        (peerKey ⟨"ipA", 1, 100⟩) = [0, 2]
    ∧ selectPeersForChunkDownload
        (List.replicate 4 [⟨"ipA", 1, 100⟩, ⟨"ipB", 2, 50⟩])
        (peerKey ⟨"ipB", 2, 50⟩) = [1, 3] := by
  refine ⟨selectPeersAux_eq_ref table 0 emptyAssign, ?_, by decide, by decide⟩
  intro i hi
  constructor
  · intro hempty k
    have h := selectPeersAux_not_mem_empty_chunk table 0 emptyAssign i hi hempty
      (fun k2 => List.not_mem_nil _) k
    rw [zero_add] at h
    exact h
  · intro hne
    rcases selectPeersAux_mem_unique table 0 emptyAssign i hi hne
      (fun k2 => List.not_mem_nil _) with ⟨k, hk, huniq⟩
    rw [zero_add] at hk
    refine ⟨k, hk, ?_⟩
    intro k2 hk2
    apply huniq
    rw [zero_add]
    exact hk2

/-! ### Claim C6 -/

/-- A provider list mentions each (ip, port) pair at most once. -/
def NoDupProviders (l : List ChunkLocationInfo) : Prop :=
  l.Pairwise (fun a b => ¬(a.ip = b.ip ∧ a.port = b.port))

/-- The table-only action of one storeChunkLocationInfo iteration. -/
def storeTableStep (ip : String) (port transfer_speed : Int)
    (table : List (List ChunkLocationInfo)) (chunk_id : Int) :
    List (List ChunkLocationInfo) :=
  if intToSizeT chunk_id < table.length then
    table.set (intToSizeT chunk_id)
      (addProvider (table.getD (intToSizeT chunk_id) []) ip port transfer_speed)
  else table

/-- The first component of storeStep is storeTableStep. -/
lemma storeStep_fst (ip : String) (port transfer_speed : Int)
    (acc : List (List ChunkLocationInfo) × List Int) (c : Int) :
    (storeStep ip port transfer_speed acc c).1 =
      storeTableStep ip port transfer_speed acc.1 c := by
  unfold storeStep storeTableStep
  by_cases hc : intToSizeT c < acc.1.length
  · rw [if_pos hc, if_pos hc]
  · rw [if_neg hc, if_neg hc]

/-- The table component of the fold is the table-only fold. -/
lemma storeFold_fst (ip : String) (port transfer_speed : Int) :
    ∀ (ids : List Int) (acc : List (List ChunkLocationInfo) × List Int),
      (ids.foldl (storeStep ip port transfer_speed) acc).1 =
        ids.foldl (storeTableStep ip port transfer_speed) acc.1 := by
  intro ids
  induction ids with
  | nil => intro acc; rfl
  | cons c rest ih =>
    intro acc
    rw [List.foldl_cons, List.foldl_cons, ih, storeStep_fst]

/-- One table step preserves the table length. -/
lemma storeTableStep_length (ip : String) (port transfer_speed : Int)
    (table : List (List ChunkLocationInfo)) (c : Int) :
    (storeTableStep ip port transfer_speed table c).length = table.length := by
  unfold storeTableStep
  by_cases hc : intToSizeT c < table.length
  · rw [if_pos hc, List.length_set]
  · rw [if_neg hc]

/-- The table fold preserves the table length. -/
lemma storeTableFold_length (ip : String) (port transfer_speed : Int) :
    ∀ (ids : List Int) (table : List (List ChunkLocationInfo)),
      (ids.foldl (storeTableStep ip port transfer_speed) table).length
        = table.length := by
  intro ids
  induction ids with
  | nil => intro table; rfl
  | cons c rest ih =>
    intro table
    rw [List.foldl_cons, ih, storeTableStep_length]

/-- When the any_of probe fails, no list entry carries the pair. -/
lemma providerPresent_false (l : List ChunkLocationInfo) (ip : String) (port : Int)
    (h : providerPresent l ip port = false) :
    ∀ a ∈ l, ¬(a.ip = ip ∧ a.port = port) := by
  intro a ha
  unfold providerPresent at h
  rw [List.any_eq_false] at h
  have := h a ha
  simpa using this

/-- addProvider preserves per-list (ip, port) uniqueness. -/
lemma addProvider_nodup (l : List ChunkLocationInfo) (ip : String)
    (port transfer_speed : Int) (h : NoDupProviders l) :
    NoDupProviders (addProvider l ip port transfer_speed) := by
  unfold addProvider
  by_cases hp : providerPresent l ip port
  · rw [if_pos hp]
    exact h
  · rw [if_neg hp]
    unfold NoDupProviders at h ⊢
    rw [List.pairwise_append]
    refine ⟨h, List.pairwise_singleton _ _, ?_⟩
    intro a ha b hb
    rw [List.mem_singleton] at hb
    subst hb
    have hfalse : providerPresent l ip port = false := by simpa using hp
    have hnp := providerPresent_false l ip port hfalse a ha
    simpa using hnp

/-- addProvider keeps every existing entry. -/
lemma addProvider_superset (l : List ChunkLocationInfo) (ip : String)
    (port transfer_speed : Int) (a : ChunkLocationInfo) (ha : a ∈ l) :
    a ∈ addProvider l ip port transfer_speed := by
  unfold addProvider
  by_cases hp : providerPresent l ip port
  · rw [if_pos hp]
    exact ha
  · rw [if_neg hp]
    exact List.mem_append_left _ ha

/-- After addProvider the pair is present. -/
lemma addProvider_mem_pair (l : List ChunkLocationInfo) (ip : String)
    (port transfer_speed : Int) :
    ∃ cli ∈ addProvider l ip port transfer_speed,
      cli.ip = ip ∧ cli.port = port := by
  unfold addProvider
  by_cases hp : providerPresent l ip port
  · rw [if_pos hp]
    unfold providerPresent at hp
    rcases List.any_eq_true.mp hp with ⟨cli, hmem, hcli⟩
    exact ⟨cli, hmem, of_decide_eq_true hcli⟩
  · rw [if_neg hp]
    exact ⟨⟨ip, port, transfer_speed⟩,
      List.mem_append_right _ (List.mem_singleton.mpr rfl), rfl, rfl⟩

/-- One table step preserves per-list uniqueness of the whole table. -/
lemma storeTableStep_nodup (ip : String) (port transfer_speed : Int)
    (table : List (List ChunkLocationInfo)) (c : Int)
    (h : ∀ l ∈ table, NoDupProviders l) :
    ∀ l ∈ storeTableStep ip port transfer_speed table c, NoDupProviders l := by
  unfold storeTableStep
  by_cases hc : intToSizeT c < table.length
  · rw [if_pos hc]
    intro l hl
    rcases List.mem_or_eq_of_mem_set hl with h1 | h2
    · exact h l h1
    · rw [h2]
      apply addProvider_nodup
      apply h
      have hg : table.getD (intToSizeT c) [] = table[intToSizeT c] :=
        List.getD_eq_getElem table [] hc
      rw [hg]
      exact List.getElem_mem hc
  · rw [if_neg hc]
    exact h

/-- The table fold preserves per-list uniqueness. -/
lemma storeTableFold_nodup (ip : String) (port transfer_speed : Int) :
    ∀ (ids : List Int) (table : List (List ChunkLocationInfo)),
      (∀ l ∈ table, NoDupProviders l) →
      ∀ l ∈ ids.foldl (storeTableStep ip port transfer_speed) table,
        NoDupProviders l := by
  intro ids
  induction ids with
  | nil => intro table h; exact h
  | cons c rest ih =>
    intro table h
    rw [List.foldl_cons]
    exact ih _ (storeTableStep_nodup ip port transfer_speed table c h)

/-- The error component of the fold collects exactly the out-of-range ids, in
order. -/
lemma storeFold_errors (ip : String) (port transfer_speed : Int) :
    ∀ (ids : List Int) (acc : List (List ChunkLocationInfo) × List Int),
      (ids.foldl (storeStep ip port transfer_speed) acc).2 =
        acc.2 ++ ids.filter (fun c => decide (acc.1.length ≤ intToSizeT c)) := by
  intro ids
  induction ids with
  | nil => intro acc; simp
  | cons c rest ih =>
    intro acc
    rw [List.foldl_cons, ih]
    have hfst : (storeStep ip port transfer_speed acc c).1.length = acc.1.length := by
      rw [storeStep_fst, storeTableStep_length]
    simp only [hfst]
    by_cases hc : intToSizeT c < acc.1.length
    · have hstep : (storeStep ip port transfer_speed acc c).2 = acc.2 := by
        unfold storeStep
        rw [if_pos hc]
      rw [hstep, List.filter_cons_of_neg (by simpa using hc)]
    · have hstep : (storeStep ip port transfer_speed acc c).2 = acc.2 ++ [c] := by
        unfold storeStep
        rw [if_neg hc]
      rw [hstep, List.filter_cons_of_pos (by simpa using hc), List.append_assoc]
      rfl

/-- The pair (ip, port) is present in entry `j` of the table. -/
def pairRecorded (table : List (List ChunkLocationInfo)) (j : Nat)
    (ip : String) (port : Int) : Prop :=
  ∃ cli ∈ table.getD j [], cli.ip = ip ∧ cli.port = port

/-- Table steps never remove a recorded pair. -/
lemma storeTableStep_mono (ip : String) (port transfer_speed : Int)
    (table : List (List ChunkLocationInfo)) (c : Int) (j : Nat)
    (h : pairRecorded table j ip port) :
    pairRecorded (storeTableStep ip port transfer_speed table c) j ip port := by
  unfold storeTableStep
  by_cases hc : intToSizeT c < table.length
  · rw [if_pos hc]
    by_cases hj : intToSizeT c = j
    · subst hj
      rcases h with ⟨cli, hmem, hcli⟩
      unfold pairRecorded
      have hg : (table.set (intToSizeT c)
          (addProvider (table.getD (intToSizeT c) []) ip port transfer_speed)).getD
            (intToSizeT c) [] =
          addProvider (table.getD (intToSizeT c) []) ip port transfer_speed := by
        rw [List.getD_eq_getElem _ _ (by rw [List.length_set]; exact hc)]
        rw [List.getElem_set_self]
      rw [hg]
      exact ⟨cli, addProvider_superset _ _ _ _ cli hmem, hcli⟩
    · unfold pairRecorded at h ⊢
      have hg : (table.set (intToSizeT c)
          (addProvider (table.getD (intToSizeT c) []) ip port transfer_speed)).getD j []
          = table.getD j [] := by
        simp only [List.getD, List.get?_eq_getElem?]
        rw [List.getElem?_set_ne hj]
      rw [hg]
      exact h
  · rw [if_neg hc]
    exact h

/-- The table fold never removes a recorded pair. -/
lemma storeTableFold_mono (ip : String) (port transfer_speed : Int) :
    ∀ (ids : List Int) (table : List (List ChunkLocationInfo)) (j : Nat),
      pairRecorded table j ip port →
      pairRecorded (ids.foldl (storeTableStep ip port transfer_speed) table) j
        ip port := by
  intro ids
  induction ids with
  | nil => intro table j h; exact h
  | cons c rest ih =>
    intro table j h
    rw [List.foldl_cons]
    exact ih _ j (storeTableStep_mono ip port transfer_speed table c j h)

/-- Every in-range id in the call ends up with the pair recorded in its
entry. -/
lemma storeTableFold_records (ip : String) (port transfer_speed : Int) :
    ∀ (ids : List Int) (table : List (List ChunkLocationInfo)) (c : Int),
      c ∈ ids → intToSizeT c < table.length →
      pairRecorded (ids.foldl (storeTableStep ip port transfer_speed) table)
        (intToSizeT c) ip port := by
  intro ids
  induction ids with
  | nil =>
    intro table c hc
    exact absurd hc (List.not_mem_nil c)
  | cons d rest ih =>
    intro table c hc hrange
    rw [List.foldl_cons]
    rcases List.mem_cons.mp hc with h1 | h2
    · subst h1
      apply storeTableFold_mono
      unfold storeTableStep
      rw [if_pos hrange]
      unfold pairRecorded
      have hg : (table.set (intToSizeT c)
          (addProvider (table.getD (intToSizeT c) []) ip port transfer_speed)).getD
            (intToSizeT c) [] =
          addProvider (table.getD (intToSizeT c) []) ip port transfer_speed := by
        rw [List.getD_eq_getElem _ _ (by rw [List.length_set]; exact hrange)]
        rw [List.getElem_set_self]
      rw [hg]
      exact addProvider_mem_pair _ ip port transfer_speed
    · exact ih _ c h2 (by rw [storeTableStep_length]; exact hrange)

/-- Out-of-range ids have no effect on the resulting table: folding over the
ids equals folding over only the in-range ones. -/
lemma storeTableFold_filter (ip : String) (port transfer_speed : Int) :
    ∀ (ids : List Int) (table : List (List ChunkLocationInfo)),
      ids.foldl (storeTableStep ip port transfer_speed) table =
        (ids.filter (fun c => decide (intToSizeT c < table.length))).foldl
          (storeTableStep ip port transfer_speed) table := by
  intro ids
  induction ids with
  | nil => intro table; rfl
  | cons c rest ih =>
    intro table
    by_cases hc : intToSizeT c < table.length
    · rw [List.filter_cons_of_pos (by simpa using hc), List.foldl_cons,
        List.foldl_cons, ih]
      have hlen := storeTableStep_length ip port transfer_speed table c
      simp only [hlen]
    · rw [List.filter_cons_of_neg (by simpa using hc), List.foldl_cons]
      have hstep : storeTableStep ip port transfer_speed table c = table := by
        unfold storeTableStep
        rw [if_neg hc]
      rw [hstep, ih]

/-- The size_t cast comparison over C++ int-ranged values is the natural
in-range test. -/
lemma intToSizeT_lt_iff (c : Int) (n : Nat)
    (hc1 : -(2 ^ 31) ≤ c) (hc2 : c < 2 ^ 31) (hn : n < 2 ^ 31) :
    (intToSizeT c < n) ↔ (0 ≤ c ∧ c < (n : Int)) := by
  unfold intToSizeT
  omega

/-- Claim C6: storeChunkLocationInfo preserves the at-most-one-entry-per-
(ip, port) invariant of every chunk's provider list; the ids reported as
errors are exactly those outside [0, total_chunks); out-of-range ids leave
the table as if they had not been passed; and the in-range ids of the same
call are still recorded.  The numeric bounds reflect the C++ int type of
chunk ids and vector sizes. -/
theorem store_dedup_and_range (st : FMState) (file_name : String)
    (chunk_ids : List Int) (ip : String) (port transfer_speed : Int)
    (hids : ∀ c ∈ chunk_ids, -(2 ^ 31) ≤ c ∧ c < 2 ^ 31)
    (hlen : ((st.chunk_location_info file_name).getD []).length < 2 ^ 31)
    (hnodup : ∀ l ∈ (st.chunk_location_info file_name).getD [], NoDupProviders l) :
    (∀ l ∈ ((storeChunkLocationInfo st file_name chunk_ids ip port
          transfer_speed).1.chunk_location_info file_name).getD [],
        NoDupProviders l)
    ∧ (storeChunkLocationInfo st file_name chunk_ids ip port transfer_speed).2 =
        chunk_ids.filter (fun c => decide (c < 0 ∨
          (((st.chunk_location_info file_name).getD []).length : Int) ≤ c))
    ∧ (∀ c ∈ chunk_ids, 0 ≤ c →
        c < (((st.chunk_location_info file_name).getD []).length : Int) →
        ∃ cli ∈ (((storeChunkLocationInfo st file_name chunk_ids ip port
              transfer_speed).1.chunk_location_info file_name).getD []).getD
            c.toNat [],
          cli.ip = ip ∧ cli.port = port)
    ∧ ((storeChunkLocationInfo st file_name chunk_ids ip port
          transfer_speed).1.chunk_location_info file_name =
        (storeChunkLocationInfo st file_name
            (chunk_ids.filter (fun c => decide (0 ≤ c ∧
              c < (((st.chunk_location_info file_name).getD []).length : Int))))
            ip port transfer_speed).1.chunk_location_info file_name) := by
  set table0 := (st.chunk_location_info file_name).getD [] with htable0
  have hres : ∀ ids : List Int,
      (storeChunkLocationInfo st file_name ids ip port
        transfer_speed).1.chunk_location_info file_name =
      some ((ids.foldl (storeStep ip port transfer_speed) (table0, [])).1) := by
    intro ids
    unfold storeChunkLocationInfo
    simp only [← htable0]
    show (if True then
        some ((ids.foldl (storeStep ip port transfer_speed) (table0, [])).1)
      else st.chunk_location_info file_name) = _
    exact if_pos trivial
  have herr : ∀ ids : List Int,
      (storeChunkLocationInfo st file_name ids ip port transfer_speed).2 =
      (ids.foldl (storeStep ip port transfer_speed) (table0, [])).2 := by
    intro ids
    rfl
  refine ⟨?_, ?_, ?_, ?_⟩
  · rw [hres chunk_ids]
    simp only [Option.getD_some]
    rw [storeFold_fst]
    exact storeTableFold_nodup ip port transfer_speed chunk_ids table0 hnodup
  · rw [herr chunk_ids, storeFold_errors]
    simp only [List.nil_append]
    apply List.filter_congr
    intro c hc
    rcases hids c hc with ⟨h1, h2⟩
    have hiff := intToSizeT_lt_iff c table0.length h1 h2 hlen
    simp only [decide_eq_decide]
    omega
  · intro c hc hc0 hclen
    rw [hres chunk_ids]
    simp only [Option.getD_some]
    rw [storeFold_fst]
    rcases hids c hc with ⟨h1, h2⟩
    have hrange : intToSizeT c < table0.length :=
      (intToSizeT_lt_iff c table0.length h1 h2 hlen).mpr ⟨hc0, hclen⟩
    have hrec := storeTableFold_records ip port transfer_speed chunk_ids table0 c
      hc hrange
    have hcast : intToSizeT c = c.toNat := by
      unfold intToSizeT
      omega
    rw [hcast] at hrec
    exact hrec
  · rw [hres chunk_ids, hres]
    rw [storeFold_fst, storeFold_fst]
    rw [storeTableFold_filter ip port transfer_speed chunk_ids table0]
    have hpred : chunk_ids.filter (fun c => decide (intToSizeT c < table0.length)) =
        chunk_ids.filter (fun c => decide (0 ≤ c ∧ c < (table0.length : Int))) := by
      apply List.filter_congr
      intro c hc
      rcases hids c hc with ⟨h1, h2⟩
      have hiff := intToSizeT_lt_iff c table0.length h1 h2 hlen
      simp only [decide_eq_decide]
      exact hiff
    rw [hpred]

/-- Witness for C1: in the concrete 4-chunk scenario, chunk 0 (which has
providers) is assigned to exactly one provider key. -/
theorem planner_matches_reference_witness :
    ∃ k, ((0 : Int) ∈ selectPeersForChunkDownload
        (List.replicate 4 [⟨"ipA", 1, 100⟩, ⟨"ipB", 2, 50⟩]) k
      ∧ ∀ k2, (0 : Int) ∈ selectPeersForChunkDownload
          (List.replicate 4 [⟨"ipA", 1, 100⟩, ⟨"ipB", 2, 50⟩]) k2 → k2 = k) :=
  ((planner_matches_reference
      (List.replicate 4 [⟨"ipA", 1, 100⟩, ⟨"ipB", 2, 50⟩])).2.1 0
    (by decide)).2 (by decide)

/-- A file-manager state with a two-chunk discovery table for book.txt. -/
def c6st : FMState :=
  { peer_id := "1", directory := "./src/1",
    local_chunks := fun _ => ∅, file_chunks := fun _ => 2,
    chunk_location_info := fun f => if f = "book.txt" then some [[], []] else none,
    chunk_location_info_mutex := fun f => f = "book.txt" }

/-- Witness for C6: recording chunk ids [0, 5, -1] on a 2-entry table
reports exactly the out-of-range ids 5 and -1 as errors. -/
theorem store_dedup_and_range_witness :
    (storeChunkLocationInfo c6st "book.txt" [0, 5, -1] "10.0.0.2" 9001 50).2
      = [5, -1] := by
  have h := store_dedup_and_range c6st "book.txt" [0, 5, -1] "10.0.0.2" 9001 50
    (by
      intro c hc
      simp at hc
      rcases hc with rfl | rfl | rfl <;> constructor <;> decide)
    (by decide)
    (by
      intro l hl
      have hred : (c6st.chunk_location_info "book.txt").getD []
          = [[], []] := rfl
      rw [hred] at hl
      rcases List.mem_cons.mp hl with h | h
      · rw [h]; exact List.Pairwise.nil
      · rcases List.mem_cons.mp h with h2 | h2
        · rw [h2]; exact List.Pairwise.nil
        · exact absurd h2 (List.not_mem_nil l))
  rw [h.2.1]
  decide

end P2P
